import Mathlib

/-!
Verification of the campaign-analyzer CSV ingestion and aggregation engine
(`src/App.jsx`).  The definitions below are a shallow embedding of the
JavaScript source: the CSV field tokenizer (the global regex
`(".*?"|[^",]+)(?=\s*,|\s*$)`), record construction, the required-column
validation of `handleFileUpload`, the grouping / drill-down aggregation of the
`tableRows` memo, the `handleCellClick` toggle, and the `dataSummary` string
built by `generateInsights`.  JavaScript objects used as dictionaries are
embedded as association lists together with the ECMAScript own-property
enumeration order (array-index keys first, ascending, then string keys in
insertion order), which is what `Object.entries` observes.
-/

namespace CampaignAnalyzer

/-- A parsed CSV record: column name to cell value, as built by `parseCSV`. -/
abbrev Row := List (String × String)

/-- Whitespace as matched by the JavaScript `\s` class and `String.prototype.trim`
(restricted to the ASCII range; the exotic Unicode space characters never occur
in the inputs considered here). -/
def isWS (c : Char) : Bool :=
  c == ' ' || c == '\t' || c == '\n' || c == '\r' || c == '\x0b' || c == '\x0c'

/-- `String.prototype.trim`: remove leading and trailing whitespace. -/
def trimChars (cs : List Char) : List Char :=
  ((cs.dropWhile isWS).reverse.dropWhile isWS).reverse

/-- `String.prototype.split(sep)` for a single-character separator; always
returns a non-empty list of (possibly empty) segments. -/
def splitOnChar (sep : Char) : List Char → List (List Char)
  | [] => [[]]
  | c :: r =>
    match splitOnChar sep r with
    | s :: ss => if c = sep then [] :: s :: ss else (c :: s) :: ss
    | [] => [[]]

/-- The lookahead `(?=\s*,|\s*$)` of the field regex: succeeds when the rest of
the line is whitespace followed by a comma, or whitespace to the end.  (The
backtracking inside `\s*,` can never expose a comma that the greedy `\s*` run
skipped, because every skipped character is whitespace, so the greedy reading
is exact.) -/
def lookaheadOk : List Char → Bool
  | [] => true
  | c :: r => if c = ',' then true else if isWS c then lookaheadOk r else false

/-- Matching the first alternative `".*?"` of the field regex after its opening
quote has been consumed: the non-greedy `.*?` stops at the first `"` whose
successor position satisfies the lookahead; a `"` that fails the lookahead is
absorbed by `.*?` and the search continues.  Returns the number of characters
consumed including the closing quote. -/
def findClose : List Char → Option Nat
  | [] => Option.none
  | c :: r =>
    if c = '"' ∧ lookaheadOk r = true then some 1
    else (findClose r).map (· + 1)

/-- Length of the maximal run matched by `[^",]+` (may be 0 when the first
character is a quote or comma, in which case the alternative fails). -/
def runLen : List Char → Nat
  | [] => 0
  | c :: r => if c = '"' ∨ c = ',' then 0 else runLen r + 1

/-- Backtracking of the greedy `[^",]+`: try the candidate match lengths from
the maximal run length downwards and keep the first (longest) one whose end
position satisfies the lookahead. -/
def tryLen (full : List Char) : Nat → Option Nat
  | 0 => Option.none
  | l + 1 => if lookaheadOk (full.drop (l + 1)) then some (l + 1) else tryLen full l

/-- One pass of `line.match(/(".*?"|[^",]+)(?=\s*,|\s*$)/g)`: scan left to
right; at each position try the quoted alternative, then the unquoted run; on
success emit the matched span and resume after it, on failure advance one
character.  `fuel` bounds the recursion; every step consumes at least one
character, so `fuel = length` is always sufficient (see `scanFieldsF_congr`). -/
def scanFieldsF : Nat → List Char → List (List Char)
  | _, [] => []
  | 0, _ :: _ => []
  | fuel + 1, c :: rest =>
    if c = '"' then
      match findClose rest with
      | some n => ('"' :: rest.take n) :: scanFieldsF fuel (rest.drop n)
      | Option.none => scanFieldsF fuel rest
    else if c = ',' then
      scanFieldsF fuel rest
    else
      match tryLen (c :: rest) (runLen (c :: rest)) with
      | some len => (c :: rest.take (len - 1)) :: scanFieldsF fuel (rest.drop (len - 1))
      | Option.none => scanFieldsF fuel rest

/-- The tokenizer of one data line: all matches of the field regex, in order. -/
def scanFields (cs : List Char) : List (List Char) :=
  scanFieldsF cs.length cs

/-- `values[index].replace(/"/g, '').trim()`: strip every double quote, then
trim.  Applied to the absent-index placeholder `[]` it yields `""`, which
coincides with the source's falsy check `values[index] ? ... : ''` because a
matched token is never the empty string. -/
def processValue (tok : List Char) : String :=
  String.mk (trimChars (tok.filter (· ≠ '"')))

/-- JavaScript object property assignment `m[k] = v` on an association list:
overwrite in place when the key exists, else append (new keys enumerate last). -/
def setEntry {α : Type} (m : List (String × α)) (k : String) (v : α) : List (String × α) :=
  if m.any (fun p => p.1 = k) then m.map (fun p => if p.1 = k then (k, v) else p)
  else m ++ [(k, v)]

/-- `header.forEach((key, index) => entry[key] = values[index] ? ... : '')`. -/
def buildEntry (header : List String) (values : List (List Char)) : Row :=
  header.enum.foldl (fun entry p => setEntry entry p.2 (processValue (values.getD p.1 []))) []

/-- `csvText.replace(/\r/g, '').split('\n').filter(line => line.trim() !== '')`. -/
def csvLines (cs : List Char) : List (List Char) :=
  (splitOnChar '\n' (cs.filter (· ≠ '\r'))).filter (fun l => trimChars l ≠ [])

/-- `lines[0].split(',').map(h => h.trim())`. -/
def csvHeader (lines : List (List Char)) : List String :=
  (splitOnChar ',' (lines.headD [])).map (fun h => String.mk (trimChars h))

/-- `parseCSV` on the character list of the input text: drop `\r`, split on
`\n`, discard blank lines, require a header plus at least one data line, split
the header on literal commas and trim, then tokenize each data line and pair
values with header tokens positionally. -/
def parseCSVChars (cs : List Char) : List Row :=
  if cs = [] then []
  else if (csvLines cs).length < 2 then []
  else ((csvLines cs).drop 1).map
    (fun line => buildEntry (csvHeader (csvLines cs)) (scanFields line))

/-- `parseCSV(csvText)` of `src/App.jsx` (the guard `if (!csvText) return []`
is the empty-string test). -/
def parseCSV (csvText : String) : List Row :=
  parseCSVChars csvText.data

/-- The fixed `requiredColumns` list of `handleFileUpload`. -/
def requiredColumns : List String :=
  ["Ad Group Name", "Ad Campaign Name", "Company ICP Priority for Contacts",
   "Lifecycle Stage", "Job Title", "Department"]

/-- The JavaScript `in` operator on a record: key membership, regardless of
the stored value. -/
def hasKey (r : Row) (k : String) : Bool :=
  r.any (fun p => p.1 = k)

/-- The two failure outcomes of an upload attempt in `handleFileUpload`. -/
inductive UploadError
  | emptyOrInvalid
  | missingColumns (cols : List String)
deriving DecidableEq

/-- The validation phase of `handleFileUpload`: empty parse fails; otherwise
the required columns absent from the first record, in `requiredColumns` order,
are reported. -/
def validate (records : List Row) : Except UploadError Unit :=
  match records with
  | [] => Except.error UploadError.emptyOrInvalid
  | firstRow :: _ =>
    let missing := requiredColumns.filter (fun col => !(hasKey firstRow col))
    if missing ≠ [] then Except.error (UploadError.missingColumns missing)
    else Except.ok ()

/-- The `drillDown` selector values. -/
inductive DrillDown
  | none
  | icp
  | lifecycle
  | job_title
  | department
  | combined
deriving DecidableEq

/-- `row[key]` where an absent key (undefined) and the empty string are
identified: both are falsy, and every use site in the source only tests
truthiness or uses the value as a grouping key. -/
def getCol (r : Row) (k : String) : String :=
  ((r.find? (fun p => p.1 = k)).map (·.2)).getD ""

def icpCol : String := "Company ICP Priority for Contacts"

def lifecycleCol : String := "Lifecycle Stage"

/-- `getDrillDownKey(row, level)`; the source returns `null` in the default
branch, embedded as `""` (both falsy, and the value is only tested for
truthiness or used as a key). -/
def getDrillDownKey (r : Row) : DrillDown → String
  | DrillDown.icp => getCol r icpCol
  | DrillDown.lifecycle => getCol r lifecycleCol
  | DrillDown.job_title => getCol r "Job Title"
  | DrillDown.department => getCol r "Department"
  | _ => ""

/-- `if (!acc[key]) acc[key] = []; acc[key].push(row)`: append to the group of
`k`, creating it (at the end, in insertion position) when absent. -/
def pushGroup (acc : List (String × List Row)) (k : String) (r : Row) :
    List (String × List Row) :=
  if acc.any (fun p => p.1 = k) then
    acc.map (fun p => if p.1 = k then (p.1, p.2 ++ [r]) else p)
  else acc ++ [(k, [r])]

/-- One step of the grouping `reduce`: `if (!key) return acc` then push. -/
def groupStep (key : Row → String) (acc : List (String × List Row)) (r : Row) :
    List (String × List Row) :=
  if key r = "" then acc else pushGroup acc (key r) r

/-- The grouping `reduce` used both for `groupedData` (keyed by the primary
dimension) and `icpGroups` (keyed by the ICP column): records with a falsy key
are skipped. -/
def groupRows (key : Row → String) (rows : List Row) : List (String × List Row) :=
  rows.foldl (groupStep key) []

/-- `acc[key] = (acc[key] || 0) + 1`. -/
def jsIncr (acc : List (String × Nat)) (k : String) : List (String × Nat) :=
  if acc.any (fun p => p.1 = k) then
    acc.map (fun p => if p.1 = k then (p.1, p.2 + 1) else p)
  else acc ++ [(k, 1)]

/-- One step of the counting `reduce`: `if (key) acc[key] = (acc[key] || 0) + 1`. -/
def countStep (key : Row → String) (acc : List (String × Nat)) (c : Row) :
    List (String × Nat) :=
  if key c = "" then acc else jsIncr acc (key c)

/-- The counting `reduce` shared by the single-column breakdown and the
`lifecycleDistribution`: count occurrences of each non-empty key. -/
def countFold (key : Row → String) (contacts : List Row) : List (String × Nat) :=
  contacts.foldl (countStep key) []

/-- The single-column breakdown of one primary group (App.jsx lines 158-162). -/
def flatBreakdown (dd : DrillDown) (contacts : List Row) : List (String × Nat) :=
  countFold (fun c => getDrillDownKey c dd) contacts

/-- The inner `lifecycleDistribution` of one ICP bucket (lines 175-179). -/
def lifeDist (icpContacts : List Row) : List (String × Nat) :=
  countFold (fun c => getCol c lifecycleCol) icpContacts

/-- One outer bucket of the combined breakdown: `{ count, lifecycleDistribution }`. -/
structure IcpBucket where
  count : Nat
  lifecycleDistribution : List (String × Nat)
deriving DecidableEq

/-- Decimal digit accumulation: the numeric value of a digit string. -/
def strToNat (s : String) : Nat :=
  s.data.foldl (fun n c => n * 10 + (c.toNat - 48)) 0

/-- An ECMAScript array-index property key: the canonical decimal form of an
integer `0 ≤ n < 2^32 - 1`.  Such keys are enumerated before all other string
keys, in ascending numeric order. -/
def isArrayIndexStr (s : String) : Bool :=
  (s.data ≠ [] && s.data.all (·.isDigit) &&
    (s.data.length == 1 || s.data.headD '0' != '0')) &&
  strToNat s < 4294967295

/-- Insertion into a sorted list (stable insertion sort step). -/
def insertSorted {α : Type} (le : α → α → Bool) (x : α) : List α → List α
  | [] => [x]
  | y :: r => if le x y then x :: y :: r else y :: insertSorted le x r

/-- Stable insertion sort. -/
def sortList {α : Type} (le : α → α → Bool) : List α → List α
  | [] => []
  | x :: r => insertSorted le x (sortList le r)

/-- `Object.entries(m)`: ECMAScript own-property order — array-index keys
first in ascending numeric order, then the remaining string keys in insertion
order. -/
def jsEntries {α : Type} (m : List (String × α)) : List (String × α) :=
  sortList (fun p q => strToNat p.1 ≤ strToNat q.1)
      (m.filter (fun p => isArrayIndexStr p.1))
    ++ m.filter (fun p => !(isArrayIndexStr p.1))

/-- A JavaScript `Set` accumulated over a list: first occurrence of each
element, in encounter order. -/
def firstSeen (l : List String) : List String :=
  l.foldl (fun acc x => if x ∈ acc then acc else acc ++ [x]) []

/-- Code-unit lexicographic comparison, the default `Array.prototype.sort`
comparator on strings (identical to code-point order on the inputs here). -/
def charListLe : List Char → List Char → Bool
  | [], _ => true
  | _ :: _, [] => false
  | a :: as, b :: bs => if a < b then true else if b < a then false else charListLe as bs

/-- `Array.from(new Set(...)).sort()`. -/
def sortStr (l : List String) : List String :=
  sortList (fun a b => charListLe a.data b.data) l

/-- The `dynamicHeaders` computation (lines 144-151): distinct non-empty
breakdown values across all records, sorted. -/
def dynamicHeaders (records : List Row) (dd : DrillDown) : List String :=
  match dd with
  | DrillDown.none => []
  | DrillDown.combined =>
    sortStr (firstSeen ((records.map (fun r => getCol r icpCol)).filter (· ≠ "")))
  | _ =>
    sortStr (firstSeen ((records.map (fun r => getDrillDownKey r dd)).filter (· ≠ "")))

/-- The breakdown field of one `AggregateRow`, as a tagged variant: `{}` /
flat counts for the single-column modes / the nested combined shape. -/
inductive Breakdown
  | flat (m : List (String × Nat))
  | nested (m : List (String × IcpBucket))
deriving DecidableEq

/-- The outer combined breakdown of one primary group (lines 163-182):
group the contacts by ICP, then rebuild an object whose value per ICP key is
`{ count: icpContacts.length, lifecycleDistribution: ... }`. -/
def nestedBreakdown (contacts : List Row) : List (String × IcpBucket) :=
  (jsEntries (groupRows (fun c => getCol c icpCol) contacts)).foldl
    (fun acc p => setEntry acc p.1 ⟨p.2.length, lifeDist p.2⟩) []

/-- The per-group breakdown dispatch of the `tableRows` memo. -/
def mkBreakdown (dd : DrillDown) (contacts : List Row) : Breakdown :=
  match dd with
  | DrillDown.none => Breakdown.flat []
  | DrillDown.combined => Breakdown.nested (nestedBreakdown contacts)
  | _ => Breakdown.flat (flatBreakdown dd contacts)

/-- One row of the aggregated table. -/
structure AggregateRow where
  primaryValue : String
  total : Nat
  breakdown : Breakdown
deriving DecidableEq

/-- The `tableHeaders`/`tableRows` memo as a pure function
`aggregate(records, dimension, drillDown)`: group by the primary dimension
(falsy keys skipped), then one `AggregateRow` per `Object.entries` entry.
An empty record set short-circuits to empty headers and rows. -/
def aggregate (records : List Row) (primaryDimension : String) (dd : DrillDown) :
    List String × List AggregateRow :=
  if records = [] then ([], [])
  else
    let grouped := groupRows (fun r => getCol r primaryDimension) records
    let finalRows := (jsEntries grouped).map
      (fun p => AggregateRow.mk p.1 p.2.length (mkBreakdown dd p.2))
    ([primaryDimension, "Total Contacts"] ++ dynamicHeaders records dd, finalRows)

/-- Sum of the values of a flat counting map. -/
def sumCounts (m : List (String × Nat)) : Nat :=
  (m.map (·.2)).sum

/-- Sum of the group sizes of a grouping map. -/
def sumLens (g : List (String × List Row)) : Nat :=
  (g.map (·.2.length)).sum

/-- Sum of the breakdown counts of a row: the flat values, or the outer
`count` fields in combined mode. -/
def breakdownSum : Breakdown → Nat
  | Breakdown.flat m => sumCounts m
  | Breakdown.nested m => (m.map (·.2.count)).sum

/-- Every key of a breakdown (at both levels) is non-empty and mapped to a
count of at least 1. -/
def goodBreakdown : Breakdown → Prop
  | Breakdown.flat m => ∀ p ∈ m, p.1 ≠ "" ∧ 1 ≤ p.2
  | Breakdown.nested m => ∀ p ∈ m, p.1 ≠ "" ∧ 1 ≤ p.2.count ∧
      ∀ q ∈ p.2.lifecycleDistribution, q.1 ≠ "" ∧ 1 ≤ q.2

/-- The column whose emptiness excludes a record from a row's breakdown sum:
the drill-down column in the single modes, the ICP column in combined mode. -/
def breakKey (dd : DrillDown) (r : Row) : String :=
  match dd with
  | DrillDown.combined => getCol r icpCol
  | _ => getDrillDownKey r dd

/-- A plain unquoted CSV field in the sense of the spec's examples: non-empty,
no quote, no comma, no whitespace character. -/
def simpleTok (t : List Char) : Prop :=
  t ≠ [] ∧ ∀ ch ∈ t, ch ≠ '"' ∧ ch ≠ ',' ∧ isWS ch = false

/-- `handleCellClick(primaryValue, drillDownKey)` acting on the
`expandedCell` state: clicking the currently expanded pair collapses it,
anything else becomes the expanded pair. -/
def toggleCell (ec : Option (String × String)) (p k : String) : Option (String × String) :=
  match ec with
  | some cur => if cur.1 = p ∧ cur.2 = k then Option.none else some (p, k)
  | Option.none => some (p, k)

/-- `((count / total) * 100).toFixed(1)` for `total > 0`, else the number `0`
stringified — modelled in exact rational arithmetic: `toFixed(1)` rounds
half away from zero at one decimal, i.e. the displayed integer of tenths is
`⌊(1000·count/total + 1/2)⌋ = (2000·count + total) / (2·total)`.  (The source
computes in IEEE doubles; the two agree on every concrete value appearing in
this development.) -/
def pctString (count total : Nat) : String :=
  if 0 < total then
    let n := (2000 * count + total) / (2 * total)
    toString (n / 10) ++ "." ++ toString (n % 10)
  else "0"

/-- The count displayed for one dynamic header column in `generateInsights`:
`row.breakdown[header].count` in combined mode, `row.breakdown[header] || 0`
otherwise.  The shape-mismatched cases cannot arise for rows built by
`aggregate`, which always pairs combined mode with a nested breakdown. -/
def colCount (dd : DrillDown) (b : Breakdown) (h : String) : Nat :=
  if dd = DrillDown.combined then
    match b with
    | Breakdown.nested m => (((m.find? (fun p => p.1 = h)).map (·.2.count)).getD 0)
    | Breakdown.flat _ => 0
  else
    match b with
    | Breakdown.flat m => (((m.find? (fun p => p.1 = h)).map (·.2)).getD 0)
    | Breakdown.nested _ => 0

/-- One line of the `dataSummary` of `generateInsights`:
`"<primaryValue> (Total: <total>): <col>: <count> (<pct>%), ..."`, with the
falsy-string fallback `breakdown || 'No breakdown'`. -/
def summaryLine (dd : DrillDown) (dynHeaders : List String) (row : AggregateRow) : String :=
  let breakdown := String.intercalate ", " (dynHeaders.map (fun h =>
    h ++ ": " ++ toString (colCount dd row.breakdown h) ++ " (" ++
      pctString (colCount dd row.breakdown h) row.total ++ "%)"))
  row.primaryValue ++ " (Total: " ++ toString row.total ++ "): " ++
    (if breakdown = "" then "No breakdown" else breakdown)

/-- The full `dataSummary`: one line per aggregate row, joined by newline;
the dynamic header columns are `tableHeaders.slice(2)`. -/
def dataSummary (records : List Row) (dim : String) (dd : DrillDown) : String :=
  let res := aggregate records dim dd
  String.intercalate "\n" (res.2.map (summaryLine dd (res.1.drop 2)))

/-! ### Tokenizer lemmas -/

theorem scanFieldsF_nil (f : Nat) : scanFieldsF f [] = [] := by
  cases f <;> rfl

theorem scanFieldsF_congr (f₁ : Nat) :
    ∀ (f₂ : Nat) (cs : List Char), cs.length ≤ f₁ → cs.length ≤ f₂ →
    scanFieldsF f₁ cs = scanFieldsF f₂ cs := by
  induction f₁ with
  | zero =>
    intro f₂ cs h₁ _
    have hcs : cs = [] := by
      cases cs with
      | nil => rfl
      | cons c r => simp at h₁
    subst hcs
    rw [scanFieldsF_nil, scanFieldsF_nil]
  | succ f ih =>
    intro f₂ cs h₁ h₂
    cases cs with
    | nil => rw [scanFieldsF_nil, scanFieldsF_nil]
    | cons c rest =>
      cases f₂ with
      | zero => simp at h₂
      | succ g =>
        have hrf : rest.length ≤ f := by simp at h₁; omega
        have hrg : rest.length ≤ g := by simp at h₂; omega
        show scanFieldsF (f + 1) (c :: rest) = scanFieldsF (g + 1) (c :: rest)
        simp only [scanFieldsF]
        by_cases hc : c = '"'
        · simp only [if_pos hc]
          cases hfc : findClose rest with
          | none => exact ih g rest hrf hrg
          | some n =>
            have hd : (rest.drop n).length ≤ rest.length := by
              rw [List.length_drop]; omega
            exact congrArg (fun x => ('"' :: rest.take n) :: x)
              (ih g (rest.drop n) (le_trans hd hrf) (le_trans hd hrg))
        · by_cases hcc : c = ','
          · simp only [if_neg hc, if_pos hcc]
            exact ih g rest hrf hrg
          · simp only [if_neg hc, if_neg hcc]
            cases htl : tryLen (c :: rest) (runLen (c :: rest)) with
            | none => exact ih g rest hrf hrg
            | some len =>
              have hd : (rest.drop (len - 1)).length ≤ rest.length := by
                rw [List.length_drop]; omega
              exact congrArg (fun x => (c :: rest.take (len - 1)) :: x)
                (ih g (rest.drop (len - 1)) (le_trans hd hrf) (le_trans hd hrg))

theorem scanFields_comma (r : List Char) : scanFields (',' :: r) = scanFields r := by
  show scanFieldsF (r.length + 1) (',' :: r) = scanFieldsF r.length r
  simp [scanFieldsF]

theorem findClose_spec (u s : List Char) (hu : ∀ ch ∈ u, ch ≠ '"')
    (hs : lookaheadOk s = true) : findClose (u ++ '"' :: s) = some (u.length + 1) := by
  induction u with
  | nil => simp [findClose, hs]
  | cons a u ih =>
    have ha : a ≠ '"' := hu a (by simp)
    have ih' := ih (fun ch hch => hu ch (by simp [hch]))
    simp [findClose, ha, ih']

theorem runLen_all (t : List Char) (ht : ∀ ch ∈ t, ¬(ch = '"' ∨ ch = ',')) :
    runLen t = t.length := by
  induction t with
  | nil => rfl
  | cons c r ih =>
    have hc := ht c (by simp)
    simp [runLen, hc, ih (fun ch hch => ht ch (by simp [hch]))]

theorem runLen_append_comma (t r : List Char) (ht : ∀ ch ∈ t, ¬(ch = '"' ∨ ch = ',')) :
    runLen (t ++ ',' :: r) = t.length := by
  induction t with
  | nil => simp [runLen]
  | cons c t ih =>
    have hc := ht c (by simp)
    simp [runLen, hc, ih (fun ch hch => ht ch (by simp [hch]))]

theorem scanFields_last (t : List Char) (ht : t ≠ [])
    (hch : ∀ ch ∈ t, ¬(ch = '"' ∨ ch = ',')) : scanFields t = [t] := by
  obtain ⟨c, t', rfl⟩ : ∃ c t', t = c :: t' := by
    cases t with
    | nil => exact absurd rfl ht
    | cons c t' => exact ⟨c, t', rfl⟩
  have hc := hch c (by simp)
  have hc1 : ¬ c = '"' := fun h => hc (Or.inl h)
  have hc2 : ¬ c = ',' := fun h => hc (Or.inr h)
  show scanFieldsF (t'.length + 1) (c :: t') = [c :: t']
  simp only [scanFieldsF, if_neg hc1, if_neg hc2]
  have hrun : runLen (c :: t') = t'.length + 1 := by
    rw [runLen_all (c :: t') hch]; rfl
  rw [hrun]
  have hla : lookaheadOk ((c :: t').drop (t'.length + 1)) = true := by
    have : (c :: t').drop (t'.length + 1) = [] := by
      apply List.drop_eq_nil_of_le; simp
    rw [this]; rfl
  simp only [tryLen, hla, if_pos]
  have htake : t'.take (t'.length + 1 - 1) = t' := by simp
  have hdrop : t'.drop (t'.length + 1 - 1) = [] := by simp
  rw [htake, hdrop, scanFieldsF_nil]

theorem scanFields_token (t r : List Char) (ht : t ≠ [])
    (hch : ∀ ch ∈ t, ¬(ch = '"' ∨ ch = ',')) :
    scanFields (t ++ ',' :: r) = t :: scanFields r := by
  obtain ⟨c, t', rfl⟩ : ∃ c t', t = c :: t' := by
    cases t with
    | nil => exact absurd rfl ht
    | cons c t' => exact ⟨c, t', rfl⟩
  have hc := hch c (by simp)
  have hc1 : ¬ c = '"' := fun h => hc (Or.inl h)
  have hc2 : ¬ c = ',' := fun h => hc (Or.inr h)
  show scanFieldsF ((c :: t' ++ ',' :: r).length) (c :: (t' ++ ',' :: r)) = _
  have hlen : (c :: t' ++ ',' :: r).length = (t' ++ ',' :: r).length + 1 := by simp
  rw [hlen]
  simp only [scanFieldsF, if_neg hc1, if_neg hc2]
  have hrun : runLen (c :: (t' ++ ',' :: r)) = t'.length + 1 := by
    have := runLen_append_comma (c :: t') r hch
    simpa using this
  rw [hrun]
  have hdropfull : (c :: (t' ++ ',' :: r)).drop (t'.length + 1) = ',' :: r := by
    have : (c :: (t' ++ ',' :: r)) = (c :: t') ++ ',' :: r := by simp
    rw [this]
    have : t'.length + 1 = (c :: t').length := by simp
    rw [this, List.drop_left]
  have hla : lookaheadOk ((c :: (t' ++ ',' :: r)).drop (t'.length + 1)) = true := by
    rw [hdropfull]; simp [lookaheadOk]
  simp only [tryLen, hla, if_pos]
  have htake : (t' ++ ',' :: r).take (t'.length + 1 - 1) = t' := by
    simp only [Nat.add_sub_cancel]
    exact List.take_left ..
  have hdrop : (t' ++ ',' :: r).drop (t'.length + 1 - 1) = ',' :: r := by
    simp only [Nat.add_sub_cancel]
    exact List.drop_left ..
  rw [htake, hdrop]
  have hcongr : scanFieldsF ((t' ++ ',' :: r).length) (',' :: r) = scanFields (',' :: r) := by
    apply scanFieldsF_congr
    · simp
    · rfl
  rw [hcongr, scanFields_comma]

theorem scanFields_quoted (u r : List Char) (hu : ∀ ch ∈ u, ch ≠ '"')
    (hr : lookaheadOk r = true) :
    scanFields ('"' :: u ++ '"' :: r) = ('"' :: u ++ ['"']) :: scanFields r := by
  have hfc := findClose_spec u r hu hr
  have hsplit : u ++ '"' :: r = (u ++ ['"']) ++ r := by simp
  have htake : (u ++ '"' :: r).take (u.length + 1) = u ++ ['"'] := by
    rw [hsplit]
    have h : u.length + 1 = (u ++ ['"']).length := by simp
    rw [h, List.take_left]
  have hdrop : (u ++ '"' :: r).drop (u.length + 1) = r := by
    rw [hsplit]
    have h : u.length + 1 = (u ++ ['"']).length := by simp
    rw [h, List.drop_left]
  have hcongr : scanFieldsF ((u ++ '"' :: r).length) r = scanFields r := by
    apply scanFieldsF_congr
    · simp; omega
    · rfl
  show scanFieldsF (('"' :: u ++ '"' :: r).length) ('"' :: (u ++ '"' :: r)) = _
  have hlen : ('"' :: u ++ '"' :: r).length = (u ++ '"' :: r).length + 1 := by simp
  rw [hlen]
  show (match findClose (u ++ '"' :: r) with
    | some n => ('"' :: (u ++ '"' :: r).take n) ::
        scanFieldsF ((u ++ '"' :: r).length) ((u ++ '"' :: r).drop n)
    | Option.none => scanFieldsF ((u ++ '"' :: r).length) (u ++ '"' :: r)) = _
  rw [hfc]
  show ('"' :: (u ++ '"' :: r).take (u.length + 1)) ::
      scanFieldsF ((u ++ '"' :: r).length) ((u ++ '"' :: r).drop (u.length + 1)) = _
  rw [htake, hdrop, hcongr]
  simp

/-! ### Parse-level lemmas -/

theorem dropWhile_eq_self_of (p : Char → Bool) (cs : List Char)
    (h : ∀ ch ∈ cs, p ch = false) : cs.dropWhile p = cs := by
  cases cs with
  | nil => rfl
  | cons c r => simp [List.dropWhile, h c (by simp)]

theorem trimChars_eq_self (cs : List Char) (h : ∀ ch ∈ cs, isWS ch = false) :
    trimChars cs = cs := by
  unfold trimChars
  rw [dropWhile_eq_self_of isWS cs h]
  rw [dropWhile_eq_self_of isWS cs.reverse (fun ch hch => h ch (by simpa using hch))]
  exact List.reverse_reverse cs

theorem processValue_eq (t : List Char) (hq : ∀ ch ∈ t, ch ≠ '"')
    (hw : ∀ ch ∈ t, isWS ch = false) : processValue t = String.mk t := by
  unfold processValue
  have hf : t.filter (· ≠ '"') = t :=
    List.filter_eq_self.mpr (fun ch hch => by simpa using hq ch hch)
  rw [hf, trimChars_eq_self t hw]

theorem processValue_quoted (u : List Char) (hq : ∀ ch ∈ u, ch ≠ '"')
    (hw : ∀ ch ∈ u, isWS ch = false) :
    processValue ('"' :: u ++ ['"']) = String.mk u := by
  unfold processValue
  have hf : ('"' :: u ++ ['"']).filter (· ≠ '"') = u := by
    have hu : u.filter (· ≠ '"') = u :=
      List.filter_eq_self.mpr (fun ch hch => by simpa using hq ch hch)
    simp [List.filter_append, hu]
    intro a hh
    exact hq a hh
  rw [hf, trimChars_eq_self u hw]

theorem splitOnChar_no_sep (sep : Char) (l : List Char) (h : sep ∉ l) :
    splitOnChar sep l = [l] := by
  induction l with
  | nil => rfl
  | cons c r ih =>
    have hc : ¬ c = sep := fun hc => h (hc ▸ List.mem_cons_self c r)
    have ih' := ih (fun hr => h (List.mem_cons_of_mem c hr))
    simp [splitOnChar, ih', hc]

theorem splitOnChar_sep_cons (sep : Char) (l1 l2 : List Char)
    (h1 : sep ∉ l1) (h2 : sep ∉ l2) :
    splitOnChar sep (l1 ++ sep :: l2) = [l1, l2] := by
  induction l1 with
  | nil => simp [splitOnChar, splitOnChar_no_sep sep l2 h2]
  | cons c l1 ih =>
    have hc : ¬ c = sep := fun hc => h1 (hc ▸ List.mem_cons_self c l1)
    have ih' := ih (fun hr => h1 (List.mem_cons_of_mem c hr))
    simp [splitOnChar, ih', hc]

theorem parseCSV_one_line (line : List Char) (hnr : '\r' ∉ line) (hnn : '\n' ∉ line)
    (hne : trimChars line ≠ []) :
    parseCSVChars ("A,B,C\n".data ++ line) =
      [buildEntry ["A", "B", "C"] (scanFields line)] := by
  have hlines : csvLines ("A,B,C\n".data ++ line) = ["A,B,C".data, line] := by
    unfold csvLines
    have hfil : ("A,B,C\n".data ++ line).filter (· ≠ '\r') = "A,B,C\n".data ++ line := by
      have hf1 : ("A,B,C\n".data).filter (· ≠ '\r') = "A,B,C\n".data := by decide
      have hf2 : line.filter (· ≠ '\r') = line := by
        apply List.filter_eq_self.mpr
        intro ch hch
        have hch' : ch ≠ '\r' := fun h => hnr (h ▸ hch)
        simpa using hch'
      rw [List.filter_append, hf1, hf2]
    rw [hfil]
    have hd : "A,B,C\n".data ++ line = "A,B,C".data ++ '\n' :: line := by
      have : "A,B,C\n".data = "A,B,C".data ++ ['\n'] := by decide
      rw [this, List.append_assoc]; rfl
    rw [hd, splitOnChar_sep_cons '\n' _ line (by decide) hnn]
    have hh : trimChars "A,B,C".data ≠ [] := by decide
    simp [hh, hne]
  have hne0 : ¬ ("A,B,C\n".data ++ line = []) := by simp
  have hhdr : csvHeader ["A,B,C".data, line] = ["A", "B", "C"] := by rfl
  unfold parseCSVChars
  rw [if_neg hne0, hlines, hhdr]
  norm_num

/-- Tokenizing a line `a,,c` made of two plain fields around an empty unquoted
field: the empty field produces no token. -/
theorem scanFields_empty_field (a c : List Char) (ha : simpleTok a) (hc : simpleTok c) :
    scanFields (a ++ ',' :: ',' :: c) = [a, c] := by
  have hach : ∀ ch ∈ a, ¬(ch = '"' ∨ ch = ',') := by
    intro ch hch h
    rcases h with h | h
    · exact (ha.2 ch hch).1 h
    · exact (ha.2 ch hch).2.1 h
  have hcch : ∀ ch ∈ c, ¬(ch = '"' ∨ ch = ',') := by
    intro ch hch h
    rcases h with h | h
    · exact (hc.2 ch hch).1 h
    · exact (hc.2 ch hch).2.1 h
  rw [scanFields_token a (',' :: c) ha.1 hach, scanFields_comma,
    scanFields_last c hc.1 hcch]

/-- Tokenizing a line `a,"",c`: the quoted empty field does produce a token. -/
theorem scanFields_quoted_empty_field (a c : List Char)
    (ha : simpleTok a) (hc : simpleTok c) :
    scanFields (a ++ ',' :: '"' :: '"' :: ',' :: c) = [a, ['"', '"'], c] := by
  have hach : ∀ ch ∈ a, ¬(ch = '"' ∨ ch = ',') := by
    intro ch hch h
    rcases h with h | h
    · exact (ha.2 ch hch).1 h
    · exact (ha.2 ch hch).2.1 h
  have hcch : ∀ ch ∈ c, ¬(ch = '"' ∨ ch = ',') := by
    intro ch hch h
    rcases h with h | h
    · exact (hc.2 ch hch).1 h
    · exact (hc.2 ch hch).2.1 h
  rw [scanFields_token a ('"' :: '"' :: ',' :: c) ha.1 hach]
  have hquoted : scanFields ('"' :: '"' :: ',' :: c) = ['"', '"'] :: scanFields (',' :: c) := by
    have := scanFields_quoted [] (',' :: c) (by simp) (by simp [lookaheadOk])
    simpa using this
  rw [hquoted, scanFields_comma, scanFields_last c hc.1 hcch]

theorem buildEntry_abc2 (v0 v1 : List Char) :
    buildEntry ["A", "B", "C"] [v0, v1] =
      [("A", processValue v0), ("B", processValue v1), ("C", processValue [])] := by
  rfl

theorem buildEntry_abc3 (v0 v1 v2 : List Char) :
    buildEntry ["A", "B", "C"] [v0, v1, v2] =
      [("A", processValue v0), ("B", processValue v1), ("C", processValue v2)] := by
  rfl

/-! ### Set / enumeration-order lemmas -/

theorem foldl_firstSeen_mem (l : List String) : ∀ (acc : List String) (x : String),
    (x ∈ l.foldl (fun acc x => if x ∈ acc then acc else acc ++ [x]) acc) ↔
      (x ∈ acc ∨ x ∈ l) := by
  induction l with
  | nil => intro acc x; simp
  | cons y l ih =>
    intro acc x
    simp only [List.foldl_cons]
    by_cases hy : y ∈ acc
    · rw [if_pos hy, ih]
      simp only [List.mem_cons]
      constructor
      · rintro (h | h)
        · exact Or.inl h
        · exact Or.inr (Or.inr h)
      · rintro (h | h | h)
        · exact Or.inl h
        · exact Or.inl (h ▸ hy)
        · exact Or.inr h
    · rw [if_neg hy, ih]
      simp only [List.mem_append, List.mem_cons, List.mem_singleton]
      tauto

theorem firstSeen_mem (l : List String) (x : String) : x ∈ firstSeen l ↔ x ∈ l := by
  unfold firstSeen
  rw [foldl_firstSeen_mem]
  simp

theorem foldl_firstSeen_nodup (l : List String) : ∀ acc : List String, acc.Nodup →
    (l.foldl (fun acc x => if x ∈ acc then acc else acc ++ [x]) acc).Nodup := by
  induction l with
  | nil => intro acc h; simpa
  | cons y l ih =>
    intro acc h
    simp only [List.foldl_cons]
    by_cases hy : y ∈ acc
    · rw [if_pos hy]; exact ih acc h
    · rw [if_neg hy]
      exact ih _ (by simp [List.nodup_append, h, hy])

theorem firstSeen_nodup (l : List String) : (firstSeen l).Nodup :=
  foldl_firstSeen_nodup l [] (by simp)

theorem firstSeen_append_one (l : List String) (x : String) :
    firstSeen (l ++ [x]) =
      if x ∈ firstSeen l then firstSeen l else firstSeen l ++ [x] := by
  unfold firstSeen
  rw [List.foldl_append]
  rfl

theorem insertSorted_perm {α : Type} (le : α → α → Bool) (x : α) (l : List α) :
    (insertSorted le x l).Perm (x :: l) := by
  induction l with
  | nil => simp [insertSorted]
  | cons y r ih =>
    unfold insertSorted
    by_cases h : le x y
    · rw [if_pos h]
    · rw [if_neg h]
      exact (ih.cons y).trans (List.Perm.swap x y r)

theorem sortList_perm {α : Type} (le : α → α → Bool) (l : List α) :
    (sortList le l).Perm l := by
  induction l with
  | nil => simp [sortList]
  | cons x r ih =>
    unfold sortList
    exact (insertSorted_perm le x (sortList le r)).trans (ih.cons x)

theorem jsEntries_perm {α : Type} (m : List (String × α)) : (jsEntries m).Perm m := by
  unfold jsEntries
  exact ((sortList_perm _ _).append_right _).trans
    (List.filter_append_perm (fun p => isArrayIndexStr p.1) m)

theorem mem_jsEntries {α : Type} (m : List (String × α)) (p : String × α) :
    p ∈ jsEntries m ↔ p ∈ m :=
  (jsEntries_perm m).mem_iff

theorem length_jsEntries {α : Type} (m : List (String × α)) :
    (jsEntries m).length = m.length :=
  (jsEntries_perm m).length_eq

theorem jsEntries_eq_self {α : Type} (m : List (String × α))
    (h : ∀ p ∈ m, isArrayIndexStr p.1 = false) : jsEntries m = m := by
  unfold jsEntries
  have h1 : m.filter (fun p => isArrayIndexStr p.1) = [] := by
    apply List.filter_eq_nil_iff.mpr
    intro p hp
    simp [h p hp]
  have h2 : m.filter (fun p => !(isArrayIndexStr p.1)) = m :=
    List.filter_eq_self.mpr (fun p hp => by simp [h p hp])
  rw [h1, h2]
  rfl

/-! ### Object-update lemmas -/

theorem pushGroup_mem_present (acc : List (String × List Row)) (k : String) (r : Row)
    (hmem : acc.any (fun p => p.1 = k) = true) (p : String × List Row)
    (hp : p ∈ pushGroup acc k r) :
    ∃ q ∈ acc, p = if q.1 = k then (q.1, q.2 ++ [r]) else q := by
  unfold pushGroup at hp
  rw [if_pos hmem] at hp
  obtain ⟨q, hq, rfl⟩ := List.mem_map.mp hp
  exact ⟨q, hq, rfl⟩

theorem pushGroup_fst_present (acc : List (String × List Row)) (k : String) (r : Row)
    (hmem : acc.any (fun p => p.1 = k) = true) :
    (pushGroup acc k r).map Prod.fst = acc.map Prod.fst := by
  unfold pushGroup
  rw [if_pos hmem, List.map_map]
  apply List.map_congr_left
  intro p _
  by_cases hpk : p.1 = k <;> simp [hpk]

theorem pushGroup_absent (acc : List (String × List Row)) (k : String) (r : Row)
    (hmem : acc.any (fun p => p.1 = k) = false) :
    pushGroup acc k r = acc ++ [(k, [r])] := by
  unfold pushGroup
  rw [hmem]
  rfl

theorem sumLens_append_one (acc : List (String × List Row)) (k : String) (r : Row) :
    sumLens (acc ++ [(k, [r])]) = sumLens acc + 1 := by
  simp [sumLens]

theorem sumLens_bump : ∀ (acc : List (String × List Row)) (k : String) (r : Row),
    (acc.map Prod.fst).Nodup → acc.any (fun p => p.1 = k) = true →
    sumLens (acc.map (fun p => if p.1 = k then (p.1, p.2 ++ [r]) else p)) =
      sumLens acc + 1 := by
  intro acc
  induction acc with
  | nil => intro k r _ hmem; simp at hmem
  | cons q rest ih =>
    intro k r hnd hmem
    simp only [List.map_cons, List.nodup_cons] at hnd
    by_cases hq : q.1 = k
    · have hrest : ∀ p ∈ rest, ¬ p.1 = k := by
        intro p hp hpk
        exact hnd.1 (by rw [hq, ← hpk]; exact List.mem_map_of_mem Prod.fst hp)
      have hmap : rest.map (fun p => if p.1 = k then (p.1, p.2 ++ [r]) else p) = rest := by
        have he : ∀ p ∈ rest, (if p.1 = k then (p.1, p.2 ++ [r]) else p) = id p :=
          fun p hp => by simp [if_neg (hrest p hp)]
        rw [List.map_congr_left he, List.map_id]
      simp only [List.map_cons, if_pos hq, hmap, sumLens, List.map_cons, List.sum_cons]
      simp
      omega
    · have hmem' : rest.any (fun p => p.1 = k) = true := by
        simpa [List.any_cons, hq] using hmem
      have := ih k r hnd.2 hmem'
      simp only [List.map_cons, if_neg hq, sumLens, List.sum_cons] at this ⊢
      omega

theorem jsIncr_mem_present (acc : List (String × Nat)) (k : String)
    (hmem : acc.any (fun p => p.1 = k) = true) (p : String × Nat)
    (hp : p ∈ jsIncr acc k) :
    ∃ q ∈ acc, p = if q.1 = k then (q.1, q.2 + 1) else q := by
  unfold jsIncr at hp
  rw [if_pos hmem] at hp
  obtain ⟨q, hq, rfl⟩ := List.mem_map.mp hp
  exact ⟨q, hq, rfl⟩

theorem jsIncr_fst_present (acc : List (String × Nat)) (k : String)
    (hmem : acc.any (fun p => p.1 = k) = true) :
    (jsIncr acc k).map Prod.fst = acc.map Prod.fst := by
  unfold jsIncr
  rw [if_pos hmem, List.map_map]
  apply List.map_congr_left
  intro p _
  by_cases hpk : p.1 = k <;> simp [hpk]

theorem jsIncr_absent (acc : List (String × Nat)) (k : String)
    (hmem : acc.any (fun p => p.1 = k) = false) :
    jsIncr acc k = acc ++ [(k, 1)] := by
  unfold jsIncr
  rw [hmem]
  rfl

theorem sumCounts_bump : ∀ (acc : List (String × Nat)) (k : String),
    (acc.map Prod.fst).Nodup → acc.any (fun p => p.1 = k) = true →
    sumCounts (acc.map (fun p => if p.1 = k then (p.1, p.2 + 1) else p)) =
      sumCounts acc + 1 := by
  intro acc
  induction acc with
  | nil => intro k _ hmem; simp at hmem
  | cons q rest ih =>
    intro k hnd hmem
    simp only [List.map_cons, List.nodup_cons] at hnd
    by_cases hq : q.1 = k
    · have hrest : ∀ p ∈ rest, ¬ p.1 = k := by
        intro p hp hpk
        exact hnd.1 (by rw [hq, ← hpk]; exact List.mem_map_of_mem Prod.fst hp)
      have hmap : rest.map (fun p => if p.1 = k then (p.1, p.2 + 1) else p) = rest := by
        have he : ∀ p ∈ rest, (if p.1 = k then (p.1, p.2 + 1) else p) = id p :=
          fun p hp => by simp [if_neg (hrest p hp)]
        rw [List.map_congr_left he, List.map_id]
      simp only [List.map_cons, if_pos hq, hmap, sumCounts, List.sum_cons]
      omega
    · have hmem' : rest.any (fun p => p.1 = k) = true := by
        simpa [List.any_cons, hq] using hmem
      have := ih k hnd.2 hmem'
      simp only [List.map_cons, if_neg hq, sumCounts, List.sum_cons] at this ⊢
      omega

/-! ### Grouping-fold characterization -/

theorem groupRows_spec_aux (keyf : Row → String) :
    ∀ (records seen : List Row) (acc : List (String × List Row)),
    (∀ p ∈ acc, p.1 ≠ "" ∧ p.2 = seen.filter (fun r => keyf r == p.1) ∧ p.2 ≠ []) →
    acc.map Prod.fst = firstSeen ((seen.map keyf).filter (· ≠ "")) →
    sumLens acc = (seen.filter (fun r => keyf r ≠ "")).length →
    (∀ p ∈ records.foldl (groupStep keyf) acc,
        p.1 ≠ "" ∧ p.2 = (seen ++ records).filter (fun r => keyf r == p.1) ∧ p.2 ≠ []) ∧
    (records.foldl (groupStep keyf) acc).map Prod.fst
        = firstSeen (((seen ++ records).map keyf).filter (· ≠ "")) ∧
    sumLens (records.foldl (groupStep keyf) acc)
        = ((seen ++ records).filter (fun r => keyf r ≠ "")).length := by
  intro records
  induction records with
  | nil =>
    intro seen acc h1 h2 h3
    simp only [List.foldl_nil, List.append_nil]
    exact ⟨h1, h2, h3⟩
  | cons r rs ih =>
    intro seen acc h1 h2 h3
    simp only [List.foldl_cons]
    have hstep :
        (∀ p ∈ groupStep keyf acc r,
            p.1 ≠ "" ∧ p.2 = (seen ++ [r]).filter (fun x => keyf x == p.1) ∧ p.2 ≠ []) ∧
        (groupStep keyf acc r).map Prod.fst
            = firstSeen (((seen ++ [r]).map keyf).filter (· ≠ "")) ∧
        sumLens (groupStep keyf acc r)
            = ((seen ++ [r]).filter (fun x => keyf x ≠ "")).length := by
      by_cases hk : keyf r = ""
      · have hgs : groupStep keyf acc r = acc := by simp [groupStep, hk]
        rw [hgs]
        refine ⟨?_, ?_, ?_⟩
        · intro p hp
          obtain ⟨hne, heq, hnil⟩ := h1 p hp
          have hbe : (keyf r == p.1) = false := by
            rw [hk]; exact beq_eq_false_iff_ne.mpr (Ne.symm hne)
          refine ⟨hne, ?_, hnil⟩
          rw [List.filter_append, ← heq]
          simp [hbe]
        · rw [h2]
          congr 1
          rw [List.map_append, List.filter_append]
          simp [hk]
        · rw [h3, List.filter_append]
          simp [hk]
      · have hgs : groupStep keyf acc r = pushGroup acc (keyf r) r := by
          simp [groupStep, hk]
        rw [hgs]
        by_cases hmem : acc.any (fun p => p.1 = keyf r) = true
        · have hnd : (acc.map Prod.fst).Nodup := by
            rw [h2]; exact firstSeen_nodup _
          have hkin : keyf r ∈ acc.map Prod.fst := by
            obtain ⟨q, hq, hqe⟩ := List.any_eq_true.mp hmem
            have : q.1 = keyf r := by simpa using hqe
            exact this ▸ List.mem_map_of_mem Prod.fst hq
          refine ⟨?_, ?_, ?_⟩
          · intro p hp
            obtain ⟨q, hq, rfl⟩ := pushGroup_mem_present acc (keyf r) r hmem p hp
            obtain ⟨hne, heq, hnil⟩ := h1 q hq
            by_cases hqk : q.1 = keyf r
            · rw [if_pos hqk]
              have hbe : (keyf r == q.1) = true := beq_iff_eq.mpr hqk.symm
              refine ⟨hne, ?_, by simp⟩
              rw [List.filter_append, ← heq]
              simp [hbe]
            · rw [if_neg hqk]
              have hbe : (keyf r == q.1) = false :=
                beq_eq_false_iff_ne.mpr (fun h => hqk h.symm)
              refine ⟨hne, ?_, hnil⟩
              rw [List.filter_append, ← heq]
              simp [hbe]
          · rw [pushGroup_fst_present acc (keyf r) r hmem, h2]
            have hvals : ((seen ++ [r]).map keyf).filter (· ≠ "") =
                ((seen.map keyf).filter (· ≠ "")) ++ [keyf r] := by
              rw [List.map_append, List.filter_append]
              simp [hk]
            rw [hvals, firstSeen_append_one]
            have hkfs : keyf r ∈ firstSeen ((seen.map keyf).filter (· ≠ "")) := by
              rw [← h2]; exact hkin
            rw [if_pos hkfs]
          · have hpg : pushGroup acc (keyf r) r =
                acc.map (fun p => if p.1 = keyf r then (p.1, p.2 ++ [r]) else p) := by
              unfold pushGroup; rw [if_pos hmem]
            rw [hpg, sumLens_bump acc (keyf r) r hnd hmem, h3, List.filter_append]
            simp [hk]
        · have hmem' : acc.any (fun p => p.1 = keyf r) = false := by
            rwa [Bool.not_eq_true] at hmem
          have hknotin : keyf r ∉ acc.map Prod.fst := by
            intro hin
            obtain ⟨q, hq, hqe⟩ := List.mem_map.mp hin
            exact hmem (List.any_eq_true.mpr ⟨q, hq, by simp [hqe]⟩)
          have hnotinseen : ∀ s ∈ seen, (keyf s == keyf r) = false := by
            intro s hs
            apply beq_eq_false_iff_ne.mpr
            intro he
            apply hknotin
            rw [h2, firstSeen_mem]
            refine List.mem_filter.mpr ⟨?_, by simp [hk]⟩
            rw [← he]
            exact List.mem_map_of_mem keyf hs
          rw [pushGroup_absent acc (keyf r) r hmem']
          refine ⟨?_, ?_, ?_⟩
          · intro p hp
            rcases List.mem_append.mp hp with hpl | hpr
            · obtain ⟨hne, heq, hnil⟩ := h1 p hpl
              have hbe : (keyf r == p.1) = false :=
                beq_eq_false_iff_ne.mpr
                  (fun he => hknotin (he ▸ List.mem_map_of_mem Prod.fst hpl))
              refine ⟨hne, ?_, hnil⟩
              rw [List.filter_append, ← heq]
              simp [hbe]
            · have hpe : p = (keyf r, [r]) := by simpa using hpr
              subst hpe
              refine ⟨hk, ?_, by simp⟩
              rw [List.filter_append]
              have hseen : seen.filter (fun x => keyf x == keyf r) = [] :=
                List.filter_eq_nil_iff.mpr
                  (fun s hs => by simp [hnotinseen s hs])
              rw [hseen]
              simp
          · have hvals : ((seen ++ [r]).map keyf).filter (· ≠ "") =
                ((seen.map keyf).filter (· ≠ "")) ++ [keyf r] := by
              rw [List.map_append, List.filter_append]
              simp [hk]
            rw [hvals, firstSeen_append_one]
            have hkfs : keyf r ∉ firstSeen ((seen.map keyf).filter (· ≠ "")) := by
              rw [← h2]; exact hknotin
            rw [if_neg hkfs, List.map_append, h2]
            rfl
          · rw [sumLens_append_one, h3, List.filter_append]
            simp [hk]
    have hres := ih (seen ++ [r]) (groupStep keyf acc r) hstep.1 hstep.2.1 hstep.2.2
    simpa [List.append_assoc] using hres

theorem groupRows_mem (keyf : Row → String) (records : List Row)
    (p : String × List Row) (hp : p ∈ groupRows keyf records) :
    p.1 ≠ "" ∧ p.2 = records.filter (fun r => keyf r == p.1) ∧ p.2 ≠ [] := by
  have h := groupRows_spec_aux keyf records [] []
    (by simp) (by simp [firstSeen]) (by simp [sumLens])
  simp only [List.nil_append] at h
  exact h.1 p hp

theorem groupRows_fst (keyf : Row → String) (records : List Row) :
    (groupRows keyf records).map Prod.fst =
      firstSeen ((records.map keyf).filter (· ≠ "")) := by
  have h := groupRows_spec_aux keyf records [] []
    (by simp) (by simp [firstSeen]) (by simp [sumLens])
  simpa using h.2.1

theorem groupRows_sumLens (keyf : Row → String) (records : List Row) :
    sumLens (groupRows keyf records) =
      (records.filter (fun r => keyf r ≠ "")).length := by
  have h := groupRows_spec_aux keyf records [] []
    (by simp) (by simp [firstSeen]) (by simp [sumLens])
  simpa using h.2.2

/-! ### Counting-fold characterization -/

theorem countFold_spec_aux (keyf : Row → String) :
    ∀ (contacts seen : List Row) (acc : List (String × Nat)),
    (∀ p ∈ acc, p.1 ≠ "" ∧ 1 ≤ p.2) →
    (acc.map Prod.fst).Nodup →
    sumCounts acc = (seen.filter (fun c => keyf c ≠ "")).length →
    (∀ p ∈ contacts.foldl (countStep keyf) acc, p.1 ≠ "" ∧ 1 ≤ p.2) ∧
    ((contacts.foldl (countStep keyf) acc).map Prod.fst).Nodup ∧
    sumCounts (contacts.foldl (countStep keyf) acc)
        = ((seen ++ contacts).filter (fun c => keyf c ≠ "")).length := by
  intro contacts
  induction contacts with
  | nil =>
    intro seen acc h1 h2 h3
    simp only [List.foldl_nil, List.append_nil]
    exact ⟨h1, h2, h3⟩
  | cons c cs ih =>
    intro seen acc h1 h2 h3
    simp only [List.foldl_cons]
    have hstep :
        (∀ p ∈ countStep keyf acc c, p.1 ≠ "" ∧ 1 ≤ p.2) ∧
        ((countStep keyf acc c).map Prod.fst).Nodup ∧
        sumCounts (countStep keyf acc c)
            = ((seen ++ [c]).filter (fun x => keyf x ≠ "")).length := by
      by_cases hk : keyf c = ""
      · have hgs : countStep keyf acc c = acc := by simp [countStep, hk]
        rw [hgs]
        refine ⟨h1, h2, ?_⟩
        rw [h3, List.filter_append]
        simp [hk]
      · have hgs : countStep keyf acc c = jsIncr acc (keyf c) := by
          simp [countStep, hk]
        rw [hgs]
        by_cases hmem : acc.any (fun p => p.1 = keyf c) = true
        · refine ⟨?_, ?_, ?_⟩
          · intro p hp
            obtain ⟨q, hq, rfl⟩ := jsIncr_mem_present acc (keyf c) hmem p hp
            obtain ⟨hne, hone⟩ := h1 q hq
            by_cases hqk : q.1 = keyf c
            · rw [if_pos hqk]; exact ⟨hne, by omega⟩
            · rw [if_neg hqk]; exact ⟨hne, hone⟩
          · rw [jsIncr_fst_present acc (keyf c) hmem]; exact h2
          · have hpg : jsIncr acc (keyf c) =
                acc.map (fun p => if p.1 = keyf c then (p.1, p.2 + 1) else p) := by
              unfold jsIncr; rw [if_pos hmem]
            rw [hpg, sumCounts_bump acc (keyf c) h2 hmem, h3, List.filter_append]
            simp [hk]
        · have hmem' : acc.any (fun p => p.1 = keyf c) = false := by
            rwa [Bool.not_eq_true] at hmem
          have hknotin : keyf c ∉ acc.map Prod.fst := by
            intro hin
            obtain ⟨q, hq, hqe⟩ := List.mem_map.mp hin
            exact hmem (List.any_eq_true.mpr ⟨q, hq, by simp [hqe]⟩)
          rw [jsIncr_absent acc (keyf c) hmem']
          refine ⟨?_, ?_, ?_⟩
          · intro p hp
            rcases List.mem_append.mp hp with hpl | hpr
            · exact h1 p hpl
            · have hpe : p = (keyf c, 1) := by simpa using hpr
              subst hpe
              exact ⟨hk, le_refl 1⟩
          · rw [List.map_append]
            simp [List.nodup_append, h2, hknotin]
          · have hsum : sumCounts (acc ++ [(keyf c, 1)]) = sumCounts acc + 1 := by
              simp [sumCounts]
            rw [hsum, h3, List.filter_append]
            simp [hk]
    have hres := ih (seen ++ [c]) (countStep keyf acc c) hstep.1 hstep.2.1 hstep.2.2
    simpa [List.append_assoc] using hres

theorem countFold_mem (keyf : Row → String) (contacts : List Row)
    (p : String × Nat) (hp : p ∈ countFold keyf contacts) : p.1 ≠ "" ∧ 1 ≤ p.2 := by
  have h := countFold_spec_aux keyf contacts [] []
    (by simp) (by simp) (by simp [sumCounts])
  simp only [List.nil_append] at h
  exact h.1 p hp

theorem countFold_sum (keyf : Row → String) (contacts : List Row) :
    sumCounts (countFold keyf contacts) =
      (contacts.filter (fun c => keyf c ≠ "")).length := by
  have h := countFold_spec_aux keyf contacts [] []
    (by simp) (by simp) (by simp [sumCounts])
  simpa using h.2.2

/-! ### Combined-breakdown characterization -/

theorem foldl_setEntry_eq_append {α : Type} (f : String × List Row → α) :
    ∀ (l : List (String × List Row)) (acc : List (String × α)),
    (l.map Prod.fst).Nodup →
    (∀ p ∈ l, ∀ q ∈ acc, q.1 ≠ p.1) →
    l.foldl (fun acc p => setEntry acc p.1 (f p)) acc =
      acc ++ l.map (fun p => (p.1, f p)) := by
  intro l
  induction l with
  | nil => intro acc _ _; simp
  | cons p ps ih =>
    intro acc hnd hdis
    simp only [List.foldl_cons]
    have habs : acc.any (fun q => q.1 = p.1) = false := by
      by_cases hc : acc.any (fun q => q.1 = p.1) = true
      · obtain ⟨q, hq, hqe⟩ := List.any_eq_true.mp hc
        exact absurd (by simpa using hqe) (hdis p (by simp) q hq)
      · rwa [Bool.not_eq_true] at hc
    have hse : setEntry acc p.1 (f p) = acc ++ [(p.1, f p)] := by
      unfold setEntry; rw [habs]; rfl
    rw [hse]
    simp only [List.map_cons, List.nodup_cons] at hnd
    have hdis' : ∀ r ∈ ps, ∀ q ∈ acc ++ [(p.1, f p)], q.1 ≠ r.1 := by
      intro r hr q hq
      rcases List.mem_append.mp hq with h | h
      · exact hdis r (List.mem_cons_of_mem p hr) q h
      · have hqe : q = (p.1, f p) := by simpa using h
        subst hqe
        intro he
        exact hnd.1 (he ▸ List.mem_map_of_mem Prod.fst hr)
    rw [ih (acc ++ [(p.1, f p)]) hnd.2 hdis']
    simp

theorem nestedBreakdown_eq_map (contacts : List Row) :
    nestedBreakdown contacts =
      (jsEntries (groupRows (fun c => getCol c icpCol) contacts)).map
        (fun p => (p.1, IcpBucket.mk p.2.length (lifeDist p.2))) := by
  unfold nestedBreakdown
  have hclean : ((groupRows (fun c => getCol c icpCol) contacts).map Prod.fst).Nodup := by
    rw [groupRows_fst]; exact firstSeen_nodup _
  have hnd : ((jsEntries (groupRows (fun c => getCol c icpCol) contacts)).map Prod.fst).Nodup :=
    ((jsEntries_perm (groupRows (fun c => getCol c icpCol) contacts)).map Prod.fst).nodup_iff.mpr
      hclean
  have h := foldl_setEntry_eq_append (fun p => IcpBucket.mk p.2.length (lifeDist p.2))
    (jsEntries (groupRows (fun c => getCol c icpCol) contacts)) [] hnd (by simp)
  simpa using h

theorem mem_nestedBreakdown (contacts : List Row) (p : String × IcpBucket)
    (hp : p ∈ nestedBreakdown contacts) :
    ∃ g : List Row, g ≠ [] ∧ p.1 ≠ "" ∧
      g = contacts.filter (fun c => getCol c icpCol == p.1) ∧
      p.2 = IcpBucket.mk g.length (lifeDist g) := by
  rw [nestedBreakdown_eq_map] at hp
  obtain ⟨q, hq, rfl⟩ := List.mem_map.mp hp
  have hq' := (mem_jsEntries _ q).mp hq
  obtain ⟨hne, heq, hnil⟩ := groupRows_mem _ contacts q hq'
  exact ⟨q.2, hnil, hne, heq, rfl⟩

theorem nestedBreakdown_sum (contacts : List Row) :
    ((nestedBreakdown contacts).map (·.2.count)).sum =
      (contacts.filter (fun c => getCol c icpCol ≠ "")).length := by
  rw [nestedBreakdown_eq_map, List.map_map]
  have hperm := (jsEntries_perm (groupRows (fun c => getCol c icpCol) contacts)).map
    (fun p : String × List Row => p.2.length)
  calc ((jsEntries (groupRows (fun c => getCol c icpCol) contacts)).map
          ((·.2.count) ∘ (fun p => (p.1, IcpBucket.mk p.2.length (lifeDist p.2))))).sum
      = ((jsEntries (groupRows (fun c => getCol c icpCol) contacts)).map
          (fun p : String × List Row => p.2.length)).sum := rfl
    _ = ((groupRows (fun c => getCol c icpCol) contacts).map
          (fun p : String × List Row => p.2.length)).sum := hperm.sum_eq
    _ = (contacts.filter (fun c => getCol c icpCol ≠ "")).length :=
          groupRows_sumLens (fun c => getCol c icpCol) contacts

/-! ### Aggregate characterization -/

theorem mem_aggregate (records : List Row) (dim : String) (dd : DrillDown)
    (row : AggregateRow) (hrow : row ∈ (aggregate records dim dd).2) :
    ∃ g : List Row, g ≠ [] ∧ row.primaryValue ≠ "" ∧
      g = records.filter (fun r => getCol r dim == row.primaryValue) ∧
      row.total = g.length ∧ row.breakdown = mkBreakdown dd g := by
  unfold aggregate at hrow
  by_cases hrec : records = []
  · rw [if_pos hrec] at hrow
    simp at hrow
  · rw [if_neg hrec] at hrow
    simp only at hrow
    obtain ⟨p, hp, rfl⟩ := List.mem_map.mp hrow
    have hp' := (mem_jsEntries _ p).mp hp
    obtain ⟨hne, heq, hnil⟩ := groupRows_mem _ records p hp'
    exact ⟨p.2, hnil, hne, heq, rfl, rfl⟩

theorem aggregate_length (records : List Row) (dim : String) (dd : DrillDown) :
    (aggregate records dim dd).2.length =
      (firstSeen ((records.map (fun r => getCol r dim)).filter (· ≠ ""))).length := by
  unfold aggregate
  by_cases hrec : records = []
  · subst hrec
    simp [firstSeen]
  · rw [if_neg hrec]
    simp only
    rw [List.length_map, length_jsEntries]
    calc (groupRows (fun r => getCol r dim) records).length
        = ((groupRows (fun r => getCol r dim) records).map Prod.fst).length := by
          rw [List.length_map]
      _ = (firstSeen ((records.map (fun r => getCol r dim)).filter (· ≠ ""))).length := by
          rw [groupRows_fst]

theorem mkBreakdown_single (dd : DrillDown) (g : List Row)
    (h1 : dd ≠ DrillDown.none) (h2 : dd ≠ DrillDown.combined) :
    mkBreakdown dd g = Breakdown.flat (flatBreakdown dd g) := by
  cases dd with
  | none => exact absurd rfl h1
  | combined => exact absurd rfl h2
  | icp => rfl
  | lifecycle => rfl
  | job_title => rfl
  | department => rfl

/-! ### Percentage / summary-format lemmas -/

theorem pctString_zero (t : Nat) (ht : 0 < t) : pctString 0 t = "0.0" := by
  show (if 0 < t then
      toString ((2000 * 0 + t) / (2 * t) / 10) ++ "." ++
        toString ((2000 * 0 + t) / (2 * t) % 10)
    else "0") = "0.0"
  rw [if_pos ht]
  have hn : (2000 * 0 + t) / (2 * t) = 0 := by
    apply Nat.div_eq_of_lt
    omega
  rw [hn]
  rfl

theorem intercalate_go_length (s : String) : ∀ (l : List String) (acc : String),
    acc.length ≤ (String.intercalate.go acc s l).length := by
  intro l
  induction l with
  | nil => intro acc; exact le_refl _
  | cons a as ih =>
    intro acc
    calc acc.length ≤ (acc ++ s ++ a).length := by
          rw [String.length_append, String.length_append]; omega
      _ ≤ (String.intercalate.go (acc ++ s ++ a) s as).length := ih (acc ++ s ++ a)

theorem intercalate_cons_ne_empty (s a : String) (as : List String) (ha : a ≠ "") :
    String.intercalate s (a :: as) ≠ "" := by
  intro h
  have h1 : a.length ≤ (String.intercalate s (a :: as)).length :=
    intercalate_go_length s as a
  rw [h] at h1
  have h2 : a.length = 0 := by simpa using h1
  exact ha (String.ext (List.length_eq_zero.mp h2))

theorem summary_segment_ne_empty (dd : DrillDown) (b : Breakdown) (h : String) (t : Nat) :
    h ++ ": " ++ toString (colCount dd b h) ++ " (" ++ pctString (colCount dd b h) t ++ "%)"
      ≠ "" := by
  intro he
  have hl := congrArg String.length he
  rw [String.length_append, String.length_append, String.length_append,
    String.length_append] at hl
  have h2 : ("%)" : String).length = 2 := rfl
  rw [h2] at hl
  simp at hl

theorem summaryLine_format (dd : DrillDown) (dyn : List String) (row : AggregateRow)
    (hdyn : dyn ≠ []) :
    summaryLine dd dyn row =
      row.primaryValue ++ " (Total: " ++ toString row.total ++ "): " ++
        String.intercalate ", " (dyn.map (fun h =>
          h ++ ": " ++ toString (colCount dd row.breakdown h) ++ " (" ++
            pctString (colCount dd row.breakdown h) row.total ++ "%)")) := by
  obtain ⟨h, hs, rfl⟩ : ∃ h hs, dyn = h :: hs := by
    cases dyn with
    | nil => exact absurd rfl hdyn
    | cons h hs => exact ⟨h, hs, rfl⟩
  unfold summaryLine
  have hne : String.intercalate ", " ((h :: hs).map (fun x =>
      x ++ ": " ++ toString (colCount dd row.breakdown x) ++ " (" ++
        pctString (colCount dd row.breakdown x) row.total ++ "%)")) ≠ "" := by
    rw [List.map_cons]
    exact intercalate_cons_ne_empty ", " _ _
      (summary_segment_ne_empty dd row.breakdown h row.total)
  dsimp only
  rw [if_neg hne]

theorem summary_segment_zero (dd : DrillDown) (b : Breakdown) (h : String) (t : Nat)
    (hc : colCount dd b h = 0) (ht : 0 < t) :
    h ++ ": " ++ toString (colCount dd b h) ++ " (" ++ pctString (colCount dd b h) t ++ "%)"
      = h ++ ": 0 (0.0%)" := by
  rw [hc, pctString_zero t ht]
  have h0 : toString (0 : Nat) = "0" := rfl
  rw [h0]
  simp only [String.append_assoc]
  congr 1

/-! ### Claim theorems -/

/-- C1 counterexample: a record whose ICP value is empty contributes to its
group's total but to no breakdown bucket, so for drill-down `icp` the breakdown
sum (0) differs from the row total (1), refuting "the sum of breakdown counts
equals the row's total record count". -/
theorem c1_counterexample :
    ¬ ∀ row ∈ (aggregate
          [[("Ad Group Name", "g"), ("Company ICP Priority for Contacts", "")]]
          "Ad Group Name" DrillDown.icp).2,
        breakdownSum row.breakdown = row.total := by
  decide

/-- C1 (amended): for every record set, grouping dimension, and drill-down mode
other than `none`, each aggregate row's breakdown counts (flat values for
single-column modes, outer `count` fields for combined) sum to at most the
row's total, with equality whenever every record of the row's group has a
non-empty breakdown value (the drill-down column for single modes, the ICP
column for combined). -/
theorem c1_breakdown_sum (records : List Row) (dim : String) (dd : DrillDown)
    (hdd : dd ≠ DrillDown.none) (row : AggregateRow)
    (hrow : row ∈ (aggregate records dim dd).2) :
    breakdownSum row.breakdown ≤ row.total ∧
      ((∀ r ∈ records, getCol r dim = row.primaryValue → breakKey dd r ≠ "") →
        breakdownSum row.breakdown = row.total) := by
  obtain ⟨g, hgnil, hne, hg, htot, hbd⟩ := mem_aggregate records dim dd row hrow
  by_cases hcomb : dd = DrillDown.combined
  · subst hcomb
    have hsum : breakdownSum row.breakdown =
        (g.filter (fun c => getCol c icpCol ≠ "")).length := by
      rw [hbd]
      show ((nestedBreakdown g).map (·.2.count)).sum = _
      exact nestedBreakdown_sum g
    constructor
    · rw [hsum, htot]
      exact List.length_filter_le _ g
    · intro hall
      rw [hsum, htot]
      congr 1
      apply List.filter_eq_self.mpr
      intro r hr
      have hr' : r ∈ records.filter (fun x => getCol x dim == row.primaryValue) := by
        rw [← hg]; exact hr
      have hrf := List.mem_filter.mp hr'
      have hbk := hall r hrf.1 (beq_iff_eq.mp hrf.2)
      simpa [breakKey] using hbk
  · have hsum : breakdownSum row.breakdown =
        (g.filter (fun c => getDrillDownKey c dd ≠ "")).length := by
      rw [hbd, mkBreakdown_single dd g hdd hcomb]
      show sumCounts (flatBreakdown dd g) = _
      exact countFold_sum _ g
    constructor
    · rw [hsum, htot]
      exact List.length_filter_le _ g
    · intro hall
      rw [hsum, htot]
      congr 1
      apply List.filter_eq_self.mpr
      intro r hr
      have hr' : r ∈ records.filter (fun x => getCol x dim == row.primaryValue) := by
        rw [← hg]; exact hr
      have hrf := List.mem_filter.mp hr'
      have hbk := hall r hrf.1 (beq_iff_eq.mp hrf.2)
      have hbkeq : breakKey dd r = getDrillDownKey r dd := by
        cases dd with
        | none => rfl
        | combined => exact absurd rfl hcomb
        | icp => rfl
        | lifecycle => rfl
        | job_title => rfl
        | department => rfl
      rw [hbkeq] at hbk
      simpa using hbk

/-- C1 witness. -/
theorem c1_witness :
    breakdownSum (AggregateRow.mk "g" 1 (Breakdown.flat [("High", 1)])).breakdown ≤
        (AggregateRow.mk "g" 1 (Breakdown.flat [("High", 1)])).total ∧
      ((∀ r ∈ [[("Ad Group Name", "g"), ("Company ICP Priority for Contacts", "High")]],
          getCol r "Ad Group Name" =
            (AggregateRow.mk "g" 1 (Breakdown.flat [("High", 1)])).primaryValue →
          breakKey DrillDown.icp r ≠ "") →
        breakdownSum (AggregateRow.mk "g" 1 (Breakdown.flat [("High", 1)])).breakdown =
          (AggregateRow.mk "g" 1 (Breakdown.flat [("High", 1)])).total) :=
  c1_breakdown_sum
    [[("Ad Group Name", "g"), ("Company ICP Priority for Contacts", "High")]]
    "Ad Group Name" DrillDown.icp (by decide)
    (AggregateRow.mk "g" 1 (Breakdown.flat [("High", 1)])) (by decide)

/-- C2: for every record set and single-column drill-down mode, every aggregate
row has a flat breakdown whose values sum to at most the row's total, with
equality whenever no record of that row's group has an empty value for the
breakdown column; and the number of aggregate rows equals the number of
distinct non-empty values of the dimension column across the record set. -/
theorem c2_single_column (records : List Row) (dim : String) (dd : DrillDown)
    (h1 : dd ≠ DrillDown.none) (h2 : dd ≠ DrillDown.combined) :
    (∀ row ∈ (aggregate records dim dd).2,
      ∃ m, row.breakdown = Breakdown.flat m ∧ sumCounts m ≤ row.total ∧
        ((∀ r ∈ records, getCol r dim = row.primaryValue → getDrillDownKey r dd ≠ "") →
          sumCounts m = row.total)) ∧
    (aggregate records dim dd).2.length =
      (firstSeen ((records.map (fun r => getCol r dim)).filter (· ≠ ""))).length := by
  constructor
  · intro row hrow
    obtain ⟨g, hgnil, hne, hg, htot, hbd⟩ := mem_aggregate records dim dd row hrow
    refine ⟨flatBreakdown dd g, by rw [hbd, mkBreakdown_single dd g h1 h2], ?_, ?_⟩
    · show sumCounts (countFold (fun c => getDrillDownKey c dd) g) ≤ row.total
      rw [countFold_sum _ g, htot]
      exact List.length_filter_le _ g
    · intro hall
      show sumCounts (countFold (fun c => getDrillDownKey c dd) g) = row.total
      rw [countFold_sum _ g, htot]
      congr 1
      apply List.filter_eq_self.mpr
      intro r hr
      have hr' : r ∈ records.filter (fun x => getCol x dim == row.primaryValue) := by
        rw [← hg]; exact hr
      have hrf := List.mem_filter.mp hr'
      have := hall r hrf.1 (beq_iff_eq.mp hrf.2)
      simpa using this
  · exact aggregate_length records dim dd

/-- C2 witness. -/
theorem c2_witness :
    (∀ row ∈ (aggregate
          [[("Ad Group Name", "g"), ("Company ICP Priority for Contacts", "High")]]
          "Ad Group Name" DrillDown.icp).2,
      ∃ m, row.breakdown = Breakdown.flat m ∧ sumCounts m ≤ row.total ∧
        ((∀ r ∈ [[("Ad Group Name", "g"), ("Company ICP Priority for Contacts", "High")]],
            getCol r "Ad Group Name" = row.primaryValue →
            getDrillDownKey r DrillDown.icp ≠ "") →
          sumCounts m = row.total)) ∧
    (aggregate [[("Ad Group Name", "g"), ("Company ICP Priority for Contacts", "High")]]
        "Ad Group Name" DrillDown.icp).2.length =
      (firstSeen ((([[("Ad Group Name", "g"),
          ("Company ICP Priority for Contacts", "High")]] : List Row).map
            (fun r => getCol r "Ad Group Name")).filter (· ≠ ""))).length :=
  c2_single_column
    [[("Ad Group Name", "g"), ("Company ICP Priority for Contacts", "High")]]
    "Ad Group Name" DrillDown.icp (by decide) (by decide)

/-- C3: for a record set whose ICP column only takes the values "High" and
"Low" and whose records all carry a lifecycle value, combined drill-down gives
every aggregate row a nested breakdown keyed by ICP value in which each
bucket's inner lifecycle distribution sums exactly to that bucket's count. -/
theorem c3_combined_nesting (records : List Row) (dim : String)
    (hicp : ∀ r ∈ records, getCol r icpCol = "High" ∨ getCol r icpCol = "Low")
    (hlife : ∀ r ∈ records, getCol r lifecycleCol ≠ "")
    (row : AggregateRow) (hrow : row ∈ (aggregate records dim DrillDown.combined).2) :
    ∃ m, row.breakdown = Breakdown.nested m ∧
      ∀ p ∈ m, (p.1 = "High" ∨ p.1 = "Low") ∧
        sumCounts p.2.lifecycleDistribution = p.2.count := by
  obtain ⟨g, hgnil, hne, hg, htot, hbd⟩ :=
    mem_aggregate records dim DrillDown.combined row hrow
  refine ⟨nestedBreakdown g, hbd, ?_⟩
  intro p hp
  obtain ⟨g', hg'nil, hpne, hg', hbucket⟩ := mem_nestedBreakdown g p hp
  have hsubg : ∀ x ∈ g', x ∈ records := by
    intro x hx
    have hx1 : x ∈ g.filter (fun c => getCol c icpCol == p.1) := by
      rw [← hg']; exact hx
    have hx2 : x ∈ g := (List.mem_filter.mp hx1).1
    have hx3 : x ∈ records.filter (fun r => getCol r dim == row.primaryValue) := by
      rw [← hg]; exact hx2
    exact (List.mem_filter.mp hx3).1
  constructor
  · obtain ⟨x, hx⟩ := List.exists_mem_of_ne_nil g' hg'nil
    have hx' : x ∈ g.filter (fun c => getCol c icpCol == p.1) := by
      rw [← hg']; exact hx
    have hxicp := beq_iff_eq.mp (List.mem_filter.mp hx').2
    rcases hicp x (hsubg x hx) with h | h
    · left; rw [← hxicp, h]
    · right; rw [← hxicp, h]
  · rw [hbucket]
    show sumCounts (countFold (fun c => getCol c lifecycleCol) g') = g'.length
    rw [countFold_sum _ g']
    congr 1
    apply List.filter_eq_self.mpr
    intro c hc
    have := hlife c (hsubg c hc)
    simpa using this

/-- C3 witness. -/
theorem c3_witness :
    ∃ m, (AggregateRow.mk "g" 1
        (Breakdown.nested [("High", IcpBucket.mk 1 [("Lead", 1)])])).breakdown =
          Breakdown.nested m ∧
      ∀ p ∈ m, (p.1 = "High" ∨ p.1 = "Low") ∧
        sumCounts p.2.lifecycleDistribution = p.2.count :=
  c3_combined_nesting
    [[("Ad Group Name", "g"), ("Company ICP Priority for Contacts", "High"),
      ("Lifecycle Stage", "Lead")]]
    "Ad Group Name" (by decide) (by decide)
    (AggregateRow.mk "g" 1 (Breakdown.nested [("High", IcpBucket.mk 1 [("Lead", 1)])]))
    (by decide)

/-- C10: in every aggregate row's breakdown — flat map, combined outer map, and
every inner lifecycle distribution — every key is a non-empty string mapped to
a count of at least 1; a zero count is only ever represented by key absence. -/
theorem c10_breakdown_keys (records : List Row) (dim : String) (dd : DrillDown)
    (row : AggregateRow) (hrow : row ∈ (aggregate records dim dd).2) :
    goodBreakdown row.breakdown := by
  obtain ⟨g, hgnil, hne, hg, htot, hbd⟩ := mem_aggregate records dim dd row hrow
  rw [hbd]
  cases dd with
  | none =>
    show goodBreakdown (Breakdown.flat [])
    intro p hp
    simp at hp
  | combined =>
    show goodBreakdown (Breakdown.nested (nestedBreakdown g))
    intro p hp
    obtain ⟨g', hg'nil, hpne, hg', hbucket⟩ := mem_nestedBreakdown g p hp
    refine ⟨hpne, ?_, ?_⟩
    · rw [hbucket]
      exact List.length_pos.mpr hg'nil
    · intro q hq
      rw [hbucket] at hq
      exact countFold_mem _ g' q hq
  | icp =>
    intro p hp
    exact countFold_mem _ g p hp
  | lifecycle =>
    intro p hp
    exact countFold_mem _ g p hp
  | job_title =>
    intro p hp
    exact countFold_mem _ g p hp
  | department =>
    intro p hp
    exact countFold_mem _ g p hp

/-- C10 witness. -/
theorem c10_witness :
    goodBreakdown (AggregateRow.mk "g" 1
        (Breakdown.nested [("High", IcpBucket.mk 1 [("Lead", 1)])])).breakdown :=
  c10_breakdown_keys
    [[("Ad Group Name", "g"), ("Company ICP Priority for Contacts", "High"),
      ("Lifecycle Stage", "Lead")]]
    "Ad Group Name" DrillDown.combined
    (AggregateRow.mk "g" 1 (Breakdown.nested [("High", IcpBucket.mk 1 [("Lead", 1)])]))
    (by decide)

/-- C4 counterexample: in the generated data summary a zero-count column is
rendered as "0 (0.0%)" (the percentage goes through `toFixed(1)`), not as
"0 (0%)" as claimed. -/
theorem c4_counterexample :
    dataSummary
        [[("Ad Group Name", "g"), ("Company ICP Priority for Contacts", "A")],
         [("Ad Group Name", "h"), ("Company ICP Priority for Contacts", "B")]]
        "Ad Group Name" DrillDown.icp =
      "g (Total: 1): A: 1 (100.0%), B: 0 (0.0%)\nh (Total: 1): A: 0 (0.0%), B: 1 (100.0%)" ∧
    dataSummary
        [[("Ad Group Name", "g"), ("Company ICP Priority for Contacts", "A")],
         [("Ad Group Name", "h"), ("Company ICP Priority for Contacts", "B")]]
        "Ad Group Name" DrillDown.icp ≠
      "g (Total: 1): A: 1 (100.0%), B: 0 (0%)\nh (Total: 1): A: 0 (0%), B: 1 (100.0%)" := by
  exact ⟨by decide, by decide⟩

/-- C4 (amended): for every aggregate row, the summary emits one line
`"<primaryValue> (Total: <total>): <col>: <count> (<pct>%), ..."` covering
every dynamic header column, where a column with count 0 (in a row with
positive total) is rendered as "0 (0.0%)"; the per-row lines are joined by
newline. -/
theorem c4_summary_format (records : List Row) (dim : String) (dd : DrillDown)
    (row : AggregateRow) (_hrow : row ∈ (aggregate records dim dd).2) :
    dataSummary records dim dd = String.intercalate "\n"
        ((aggregate records dim dd).2.map
          (summaryLine dd ((aggregate records dim dd).1.drop 2))) ∧
    ((aggregate records dim dd).1.drop 2 ≠ [] →
      summaryLine dd ((aggregate records dim dd).1.drop 2) row =
        row.primaryValue ++ " (Total: " ++ toString row.total ++ "): " ++
          String.intercalate ", " (((aggregate records dim dd).1.drop 2).map (fun h =>
            h ++ ": " ++ toString (colCount dd row.breakdown h) ++ " (" ++
              pctString (colCount dd row.breakdown h) row.total ++ "%)"))) ∧
    (∀ h : String, colCount dd row.breakdown h = 0 → 0 < row.total →
      h ++ ": " ++ toString (colCount dd row.breakdown h) ++ " (" ++
        pctString (colCount dd row.breakdown h) row.total ++ "%)" = h ++ ": 0 (0.0%)") := by
  refine ⟨rfl, ?_, ?_⟩
  · intro hdyn
    exact summaryLine_format dd _ row hdyn
  · intro h hc ht
    exact summary_segment_zero dd row.breakdown h row.total hc ht

/-- C4 witness. -/
theorem c4_witness :
    dataSummary
        [[("Ad Group Name", "g"), ("Company ICP Priority for Contacts", "A")],
         [("Ad Group Name", "h"), ("Company ICP Priority for Contacts", "B")]]
        "Ad Group Name" DrillDown.icp = String.intercalate "\n"
        ((aggregate
          [[("Ad Group Name", "g"), ("Company ICP Priority for Contacts", "A")],
           [("Ad Group Name", "h"), ("Company ICP Priority for Contacts", "B")]]
          "Ad Group Name" DrillDown.icp).2.map
          (summaryLine DrillDown.icp ((aggregate
            [[("Ad Group Name", "g"), ("Company ICP Priority for Contacts", "A")],
             [("Ad Group Name", "h"), ("Company ICP Priority for Contacts", "B")]]
            "Ad Group Name" DrillDown.icp).1.drop 2))) ∧
    ((aggregate
        [[("Ad Group Name", "g"), ("Company ICP Priority for Contacts", "A")],
         [("Ad Group Name", "h"), ("Company ICP Priority for Contacts", "B")]]
        "Ad Group Name" DrillDown.icp).1.drop 2 ≠ [] →
      summaryLine DrillDown.icp ((aggregate
          [[("Ad Group Name", "g"), ("Company ICP Priority for Contacts", "A")],
           [("Ad Group Name", "h"), ("Company ICP Priority for Contacts", "B")]]
          "Ad Group Name" DrillDown.icp).1.drop 2)
          (AggregateRow.mk "g" 1 (Breakdown.flat [("A", 1)])) =
        (AggregateRow.mk "g" 1 (Breakdown.flat [("A", 1)])).primaryValue ++ " (Total: " ++
          toString (AggregateRow.mk "g" 1 (Breakdown.flat [("A", 1)])).total ++ "): " ++
          String.intercalate ", " (((aggregate
            [[("Ad Group Name", "g"), ("Company ICP Priority for Contacts", "A")],
             [("Ad Group Name", "h"), ("Company ICP Priority for Contacts", "B")]]
            "Ad Group Name" DrillDown.icp).1.drop 2).map (fun h =>
            h ++ ": " ++
              toString (colCount DrillDown.icp
                (AggregateRow.mk "g" 1 (Breakdown.flat [("A", 1)])).breakdown h) ++ " (" ++
              pctString (colCount DrillDown.icp
                  (AggregateRow.mk "g" 1 (Breakdown.flat [("A", 1)])).breakdown h)
                (AggregateRow.mk "g" 1 (Breakdown.flat [("A", 1)])).total ++ "%)"))) ∧
    (∀ h : String,
      colCount DrillDown.icp (AggregateRow.mk "g" 1 (Breakdown.flat [("A", 1)])).breakdown h
          = 0 →
      0 < (AggregateRow.mk "g" 1 (Breakdown.flat [("A", 1)])).total →
      h ++ ": " ++
        toString (colCount DrillDown.icp
          (AggregateRow.mk "g" 1 (Breakdown.flat [("A", 1)])).breakdown h) ++ " (" ++
        pctString (colCount DrillDown.icp
            (AggregateRow.mk "g" 1 (Breakdown.flat [("A", 1)])).breakdown h)
          (AggregateRow.mk "g" 1 (Breakdown.flat [("A", 1)])).total ++ "%)" =
        h ++ ": 0 (0.0%)") :=
  c4_summary_format
    [[("Ad Group Name", "g"), ("Company ICP Priority for Contacts", "A")],
     [("Ad Group Name", "h"), ("Company ICP Priority for Contacts", "B")]]
    "Ad Group Name" DrillDown.icp
    (AggregateRow.mk "g" 1 (Breakdown.flat [("A", 1)])) (by decide)

/-- C5 counterexample: with the primary values "2" and "1" (in that input
order) the aggregate enumerates the groups in ascending numeric order
["1", "2"], not in first-occurrence order ["2", "1"]: JavaScript objects
enumerate array-index keys first, sorted ascending. -/
theorem c5_counterexample :
    (aggregate [[("Ad Group Name", "2")], [("Ad Group Name", "1")]]
        "Ad Group Name" DrillDown.none).2.map (fun row => row.primaryValue) = ["1", "2"] ∧
    firstSeen ((([[("Ad Group Name", "2")], [("Ad Group Name", "1")]] : List Row).map
        (fun r => getCol r "Ad Group Name")).filter (· ≠ "")) = ["2", "1"] ∧
    (aggregate [[("Ad Group Name", "2")], [("Ad Group Name", "1")]]
        "Ad Group Name" DrillDown.none).2.map (fun row => row.primaryValue) ≠
      firstSeen ((([[("Ad Group Name", "2")], [("Ad Group Name", "1")]] : List Row).map
        (fun r => getCol r "Ad Group Name")).filter (· ≠ "")) := by
  exact ⟨by decide, by decide, by decide⟩

/-- C5 (amended): provided no dimension value is an ECMAScript array-index
string, the aggregate rows appear in first-occurrence order of the distinct
non-empty dimension values; array-index-valued groups would instead be
enumerated first, in ascending numeric order. -/
theorem c5_insertion_order (records : List Row) (dim : String) (dd : DrillDown)
    (hidx : ∀ r ∈ records, isArrayIndexStr (getCol r dim) = false) :
    (aggregate records dim dd).2.map (fun row => row.primaryValue) =
      firstSeen ((records.map (fun r => getCol r dim)).filter (· ≠ "")) := by
  by_cases hrec : records = []
  · subst hrec
    simp [aggregate, firstSeen]
  · unfold aggregate
    rw [if_neg hrec]
    simp only
    have hgidx : ∀ p ∈ groupRows (fun r => getCol r dim) records,
        isArrayIndexStr p.1 = false := by
      intro p hp
      obtain ⟨hne, heq, hnil⟩ := groupRows_mem _ records p hp
      obtain ⟨x, hx⟩ := List.exists_mem_of_ne_nil p.2 hnil
      have hx' : x ∈ records.filter (fun r => getCol r dim == p.1) := by
        rw [← heq]; exact hx
      have hxf := List.mem_filter.mp hx'
      have hxi := hidx x hxf.1
      rwa [beq_iff_eq.mp hxf.2] at hxi
    rw [jsEntries_eq_self _ hgidx, List.map_map]
    have hco : ((fun row : AggregateRow => row.primaryValue) ∘
        (fun p : String × List Row =>
          AggregateRow.mk p.1 p.2.length (mkBreakdown dd p.2))) =
        (Prod.fst : String × List Row → String) := rfl
    rw [hco]
    exact groupRows_fst _ records

/-- C5 witness. -/
theorem c5_witness :
    (aggregate [[("Ad Group Name", "b")], [("Ad Group Name", "a")]]
        "Ad Group Name" DrillDown.none).2.map (fun row => row.primaryValue) =
      firstSeen ((([[("Ad Group Name", "b")], [("Ad Group Name", "a")]] : List Row).map
        (fun r => getCol r "Ad Group Name")).filter (· ≠ "")) :=
  c5_insertion_order [[("Ad Group Name", "b")], [("Ad Group Name", "a")]]
    "Ad Group Name" DrillDown.none (by decide)

/-- C7: when the first parsed record lacks required columns, validation fails
with exactly the missing column names in the fixed required-column order; the
outcome depends neither on the record's own key order nor on the remaining
records, and the check is a pure function. -/
theorem c7_missing_columns (r r' : Row) (l l' : List Row)
    (hk : ∀ c, hasKey r' c = hasKey r c)
    (hmiss : requiredColumns.filter (fun c => !(hasKey r c)) ≠ []) :
    validate (r :: l) = Except.error
        (UploadError.missingColumns (requiredColumns.filter (fun c => !(hasKey r c)))) ∧
    validate (r' :: l') = validate (r :: l) := by
  have hfeq : requiredColumns.filter (fun c => !(hasKey r' c)) =
      requiredColumns.filter (fun c => !(hasKey r c)) := by
    apply List.filter_congr
    intro c _
    rw [hk c]
  constructor
  · simp [validate, hmiss]
  · simp [validate, hfeq]

/-- C7 witness: a first record carrying every required column except
`Department`, checked against a key-permuted copy and an unrelated tail. -/
theorem c7_witness :
    validate
        [[("Ad Group Name", "x"), ("Ad Campaign Name", "x"),
          ("Company ICP Priority for Contacts", "x"), ("Lifecycle Stage", "x"),
          ("Job Title", "x")]] = Except.error
        (UploadError.missingColumns (requiredColumns.filter (fun c =>
          !(hasKey [("Ad Group Name", "x"), ("Ad Campaign Name", "x"),
            ("Company ICP Priority for Contacts", "x"), ("Lifecycle Stage", "x"),
            ("Job Title", "x")] c)))) ∧
    validate
        [[("Job Title", "y"), ("Lifecycle Stage", "y"),
          ("Company ICP Priority for Contacts", "y"), ("Ad Campaign Name", "y"),
          ("Ad Group Name", "y")],
         [("Other", "z")]] =
      validate
        [[("Ad Group Name", "x"), ("Ad Campaign Name", "x"),
          ("Company ICP Priority for Contacts", "x"), ("Lifecycle Stage", "x"),
          ("Job Title", "x")]] :=
  c7_missing_columns
    [("Ad Group Name", "x"), ("Ad Campaign Name", "x"),
     ("Company ICP Priority for Contacts", "x"), ("Lifecycle Stage", "x"),
     ("Job Title", "x")]
    [("Job Title", "y"), ("Lifecycle Stage", "y"),
     ("Company ICP Priority for Contacts", "y"), ("Ad Campaign Name", "y"),
     ("Ad Group Name", "y")]
    [] [[("Other", "z")]]
    (by
      intro c
      by_cases h1 : c = "Ad Group Name" <;> by_cases h2 : c = "Ad Campaign Name" <;>
        by_cases h3 : c = "Company ICP Priority for Contacts" <;>
        by_cases h4 : c = "Lifecycle Stage" <;> by_cases h5 : c = "Job Title" <;>
        simp [hasKey, eq_comm, h1, h2, h3, h4, h5])
    (by decide)

/-- C8 counterexample: when a different cell ("a","b") is expanded, toggling
("x","y") twice ends with no expanded cell, not with the original ("a","b"):
the first click replaces the selection and the second collapses it. -/
theorem c8_counterexample :
    toggleCell (toggleCell (some ("a", "b")) "x" "y") "x" "y" = Option.none ∧
    toggleCell (toggleCell (some ("a", "b")) "x" "y") "x" "y" ≠ some ("a", "b") := by
  exact ⟨rfl, by decide⟩

/-- C8 (amended): toggling the same (primaryValue, key) pair twice restores the
original ExpandedCell when the original was `none` or exactly that pair
(none → set to (p,k) → none); starting from a different expanded cell the
second toggle collapses to `none` instead. -/
theorem c8_toggle_restore (ec : Option (String × String)) (p k : String)
    (h : ec = Option.none ∨ ec = some (p, k)) :
    toggleCell (toggleCell ec p k) p k = ec := by
  rcases h with h | h
  · subst h
    show toggleCell (some (p, k)) p k = Option.none
    simp [toggleCell]
  · subst h
    show toggleCell (toggleCell (some (p, k)) p k) p k = some (p, k)
    simp [toggleCell]

/-- C8 witness. -/
theorem c8_witness : toggleCell (toggleCell Option.none "x" "y") "x" "y" = Option.none :=
  c8_toggle_restore Option.none "x" "y" (Or.inl rfl)

/-- C6: a double-quoted field containing a comma, followed by a comma and a
plain field, tokenizes into exactly two fields: the quoted span (and the
processed values strip the quotes while preserving the internal comma) and the
following field. -/
theorem c6_quoted_comma (u v : List Char)
    (_hcomma : ',' ∈ u)
    (hu : ∀ ch ∈ u, ch ≠ '"' ∧ isWS ch = false)
    (hv : simpleTok v) :
    scanFields ('"' :: u ++ '"' :: ',' :: v) = [('"' :: u ++ ['"']), v] ∧
    (scanFields ('"' :: u ++ '"' :: ',' :: v)).map processValue =
      [String.mk u, String.mk v] := by
  have hvch : ∀ ch ∈ v, ¬(ch = '"' ∨ ch = ',') := by
    intro ch hch h
    rcases h with h | h
    · exact (hv.2 ch hch).1 h
    · exact (hv.2 ch hch).2.1 h
  have hs : scanFields ('"' :: u ++ '"' :: ',' :: v) =
      ('"' :: u ++ ['"']) :: scanFields (',' :: v) :=
    scanFields_quoted u (',' :: v) (fun ch hch => (hu ch hch).1) (by simp [lookaheadOk])
  rw [hs, scanFields_comma, scanFields_last v hv.1 hvch]
  refine ⟨rfl, ?_⟩
  simp only [List.map_cons, List.map_nil]
  rw [processValue_quoted u (fun ch hch => (hu ch hch).1) (fun ch hch => (hu ch hch).2),
    processValue_eq v (fun ch hch => (hv.2 ch hch).1) (fun ch hch => (hv.2 ch hch).2.2)]

/-- C6 witness: the spec's example `"a,b",c`. -/
theorem c6_witness :
    scanFields ('"' :: ['a', ',', 'b'] ++ '"' :: ',' :: ['c']) =
      [('"' :: ['a', ',', 'b'] ++ ['"']), ['c']] ∧
    (scanFields ('"' :: ['a', ',', 'b'] ++ '"' :: ',' :: ['c'])).map processValue =
      [String.mk ['a', ',', 'b'], String.mk ['c']] :=
  c6_quoted_comma ['a', ',', 'b'] ['c'] (by decide) (by decide) ⟨by decide, by decide⟩

/-- C9: under header `A,B,C`, a data line `a,,c` has its empty unquoted field
skipped by the tokenizer, so the following value shifts left against the header
(`{A: a, B: c, C: ""}`), while a quoted empty field in `a,"",c` is not skipped
(`{A: a, B: "", C: c}`). -/
theorem c9_empty_field_shift (a c : List Char) (ha : simpleTok a) (hc : simpleTok c) :
    parseCSVChars ("A,B,C\n".data ++ (a ++ ',' :: ',' :: c)) =
      [[("A", String.mk a), ("B", String.mk c), ("C", "")]] ∧
    parseCSVChars ("A,B,C\n".data ++ (a ++ ',' :: '"' :: '"' :: ',' :: c)) =
      [[("A", String.mk a), ("B", ""), ("C", String.mk c)]] := by
  have hpa : processValue a = String.mk a :=
    processValue_eq a (fun ch hch => (ha.2 ch hch).1) (fun ch hch => (ha.2 ch hch).2.2)
  have hpc : processValue c = String.mk c :=
    processValue_eq c (fun ch hch => (hc.2 ch hch).1) (fun ch hch => (hc.2 ch hch).2.2)
  constructor
  · have hnr : '\r' ∉ (a ++ ',' :: ',' :: c) := by
      intro h
      rcases List.mem_append.mp h with h | h
      · exact absurd ((ha.2 '\r' h).2.2) (by decide)
      · simp only [List.mem_cons] at h
        rcases h with h | h | h
        · exact absurd h (by decide)
        · exact absurd h (by decide)
        · exact absurd ((hc.2 '\r' h).2.2) (by decide)
    have hnn : '\n' ∉ (a ++ ',' :: ',' :: c) := by
      intro h
      rcases List.mem_append.mp h with h | h
      · exact absurd ((ha.2 '\n' h).2.2) (by decide)
      · simp only [List.mem_cons] at h
        rcases h with h | h | h
        · exact absurd h (by decide)
        · exact absurd h (by decide)
        · exact absurd ((hc.2 '\n' h).2.2) (by decide)
    have hallws : ∀ ch ∈ (a ++ ',' :: ',' :: c), isWS ch = false := by
      intro ch hch
      rcases List.mem_append.mp hch with h | h
      · exact (ha.2 ch h).2.2
      · simp only [List.mem_cons] at h
        rcases h with h | h | h
        · subst h; decide
        · subst h; decide
        · exact (hc.2 ch h).2.2
    have hne : trimChars (a ++ ',' :: ',' :: c) ≠ [] := by
      rw [trimChars_eq_self _ hallws]
      simp
    rw [parseCSV_one_line _ hnr hnn hne, scanFields_empty_field a c ha hc,
      buildEntry_abc2, hpa, hpc]
    rfl
  · have hnr : '\r' ∉ (a ++ ',' :: '"' :: '"' :: ',' :: c) := by
      intro h
      rcases List.mem_append.mp h with h | h
      · exact absurd ((ha.2 '\r' h).2.2) (by decide)
      · simp only [List.mem_cons] at h
        rcases h with h | h | h | h | h
        · exact absurd h (by decide)
        · exact absurd h (by decide)
        · exact absurd h (by decide)
        · exact absurd h (by decide)
        · exact absurd ((hc.2 '\r' h).2.2) (by decide)
    have hnn : '\n' ∉ (a ++ ',' :: '"' :: '"' :: ',' :: c) := by
      intro h
      rcases List.mem_append.mp h with h | h
      · exact absurd ((ha.2 '\n' h).2.2) (by decide)
      · simp only [List.mem_cons] at h
        rcases h with h | h | h | h | h
        · exact absurd h (by decide)
        · exact absurd h (by decide)
        · exact absurd h (by decide)
        · exact absurd h (by decide)
        · exact absurd ((hc.2 '\n' h).2.2) (by decide)
    have hallws : ∀ ch ∈ (a ++ ',' :: '"' :: '"' :: ',' :: c), isWS ch = false := by
      intro ch hch
      rcases List.mem_append.mp hch with h | h
      · exact (ha.2 ch h).2.2
      · simp only [List.mem_cons] at h
        rcases h with h | h | h | h | h
        · subst h; decide
        · subst h; decide
        · subst h; decide
        · subst h; decide
        · exact (hc.2 ch h).2.2
    have hne : trimChars (a ++ ',' :: '"' :: '"' :: ',' :: c) ≠ [] := by
      rw [trimChars_eq_self _ hallws]
      simp
    rw [parseCSV_one_line _ hnr hnn hne, scanFields_quoted_empty_field a c ha hc,
      buildEntry_abc3, hpa, hpc]
    rfl

/-- C9 witness: the line `a,,c` (and `a,"",c`) under header `A,B,C`. -/
theorem c9_witness :
    parseCSVChars ("A,B,C\n".data ++ (['a'] ++ ',' :: ',' :: ['c'])) =
      [[("A", String.mk ['a']), ("B", String.mk ['c']), ("C", "")]] ∧
    parseCSVChars ("A,B,C\n".data ++ (['a'] ++ ',' :: '"' :: '"' :: ',' :: ['c'])) =
      [[("A", String.mk ['a']), ("B", ""), ("C", String.mk ['c'])]] :=
  c9_empty_field_shift ['a'] ['c'] ⟨by decide, by decide⟩ ⟨by decide, by decide⟩

end CampaignAnalyzer
